import Mathlib

/-!
Verification development for the markdown-maintenance scripts of this repository
(formater.py, fix_empty_titles.py, gesp_file_organizer.py, modify_md_titles.py).

The Python code is shallowly embedded: strings are Lean `String`s processed as
`List Char`, the regular expressions of the source are compiled by hand into
deterministic character-list matchers (each matcher's doc comment records the
regex it implements and the backtracking analysis justifying determinism),
YAML values are abstracted, and the per-directory batch pass of formater.py is
modelled as a pure function on lists of parsed documents.
-/

namespace Fmt

/-! ## Python character classes and string helpers -/

/-- Python `\s` / `str.strip()` whitespace, restricted to the ASCII range
(space, tab, newline, carriage return, vertical tab, form feed).  The
repository's data only exercises these. -/
def isPySpace (c : Char) : Bool :=
  c = ' ' || c = '\t' || c = '\n' || c = '\r' || c.toNat = 11 || c.toNat = 12

/-- Python `\d`, restricted to ASCII digits. -/
def isDigitChar (c : Char) : Bool :=
  '0' ≤ c && c ≤ '9'

/-- Python `str.strip()`: drop leading and trailing whitespace. -/
def pyStrip (cs : List Char) : List Char :=
  ((cs.dropWhile isPySpace).reverse.dropWhile isPySpace).reverse

/-- Python `needle in hay` substring test. -/
def isSubstr (needle : List Char) : List Char → Bool
  | [] => needle.isEmpty
  | c :: t => needle.isPrefixOf (c :: t) || isSubstr needle t

/-- Python `filename.replace('.md', '')`: delete every non-overlapping
occurrence of `.md`, scanning left to right. -/
def replaceDelMd : List Char → List Char
  | '.' :: 'm' :: 'd' :: rest => replaceDelMd rest
  | c :: rest => c :: replaceDelMd rest
  | [] => []

/-- Python `str.lower()`, restricted to ASCII letters. -/
def pyLower (cs : List Char) : List Char :=
  cs.map fun c => if 'A' ≤ c && c ≤ 'Z' then Char.ofNat (c.toNat + 32) else c

/-! ## Regex building blocks

Each combinator consumes a prefix of the character list and returns the
consumed group together with the rest, or `none` when the match fails at
this position (Python `re.match` semantics: anchored at the start, free to
leave a suffix unconsumed). -/

/-- Match `\d{n}`: exactly `n` ASCII digits. -/
def takeDigits : Nat → List Char → Option (List Char × List Char)
  | 0, cs => some ([], cs)
  | _ + 1, [] => none
  | n + 1, c :: cs =>
    if isDigitChar c then (takeDigits n cs).map fun p => (c :: p.1, p.2)
    else none

/-- Match one literal character. -/
def takeLit (c : Char) : List Char → Option (List Char)
  | [] => none
  | d :: t => if d = c then some t else none

/-- Match `\s+` (greedy).  `\s` and the characters every following regex
piece can start with are disjoint, so maximal munch is the unique match. -/
def takeSpaces1 (cs : List Char) : Option (List Char) :=
  let rest := cs.dropWhile isPySpace
  if rest.length = cs.length then none else some rest

/-- Match `\s*` (greedy); always succeeds. -/
def takeSpaces (cs : List Char) : List Char :=
  cs.dropWhile isPySpace

/-- Match `\d{4}-\d{2}-\d{2}` and return the 10 consumed characters. -/
def takeDate10 (cs : List Char) : Option (List Char × List Char) := do
  let (y, r1) ← takeDigits 4 cs
  let r2 ← takeLit '-' r1
  let (mo, r3) ← takeDigits 2 r2
  let r4 ← takeLit '-' r3
  let (d, r5) ← takeDigits 2 r4
  some (y ++ '-' :: mo ++ '-' :: d, r5)

/-- Match `\d{2}:\d{2}` (5 characters). -/
def takeHM (cs : List Char) : Option (List Char × List Char) := do
  let (h, r1) ← takeDigits 2 cs
  let r2 ← takeLit ':' r1
  let (m, r3) ← takeDigits 2 r2
  some (h ++ ':' :: m, r3)

/-- Match `\d{2}:\d{2}:\d{2}` (8 characters). -/
def takeHMS (cs : List Char) : Option (List Char × List Char) := do
  let (hm, r1) ← takeHM cs
  let r2 ← takeLit ':' r1
  let (s, r3) ← takeDigits 2 r2
  some (hm ++ ':' :: s, r3)

/-- Match `(\+\d{4})?`.  `+` is not a whitespace or digit character, so no
backtracking into a preceding `\s*` can create a match this misses. -/
def takeTzOpt (cs : List Char) : Option (List Char) × List Char :=
  match cs with
  | c :: t =>
    if c = '+' then
      match takeDigits 4 t with
      | some (ds, r) => (some (c :: ds), r)
      | none => (none, c :: t)
    else (none, c :: t)
  | [] => (none, [])

/-! ## formater.py: convert_date_format (lines 153-177) -/

/-- Pattern 1 of `convert_date_format`:
`(\d{4}-\d{2}-\d{2})\s+(\d{2}:\d{2})\s*(\+\d{4})?` under `re.match`.
Returns the three groups (date, 5-character time, optional timezone). -/
def matchP1 (cs : List Char) : Option (List Char × List Char × Option (List Char)) := do
  let (d, r1) ← takeDate10 cs
  let r2 ← takeSpaces1 r1
  let (t, r3) ← takeHM r2
  let r4 := takeSpaces r3
  let (tz, _) := takeTzOpt r4
  some (d, t, tz)

/-- Pattern 2 of `convert_date_format`:
`(\d{4}-\d{2}-\d{2})T(\d{2}:\d{2}:\d{2})(\+\d{4})?` under `re.match`. -/
def matchP2 (cs : List Char) : Option (List Char × List Char × Option (List Char)) := do
  let (d, r1) ← takeDate10 cs
  let r2 ← takeLit 'T' r1
  let (t, r3) ← takeHMS r2
  let (tz, _) := takeTzOpt r3
  some (d, t, tz)

/-- Pattern 3 of `convert_date_format`: `(\d{4}-\d{2}-\d{2})` under `re.match`. -/
def matchP3 (cs : List Char) : Option (List Char) :=
  (takeDate10 cs).map (·.1)

/-- The shared assembly step of `convert_date_format` (source lines 167-175):
missing time defaults to `20:00:00`, missing timezone to `+0800`, a
5-character `HH:MM` time gets `:00` appended, and the result is
`date + "T" + time + timezone`. -/
def assembleDate (d : List Char) (t? : Option (List Char)) (z? : Option (List Char)) :
    List Char :=
  let t := t?.getD ("20:00:00".toList)
  let z := z?.getD ("+0800".toList)
  let t := if t.length = 5 then t ++ (":00".toList) else t
  d ++ 'T' :: (t ++ z)

/-- formater.py `convert_date_format` (lines 153-177).  `None`/empty input
returns `none`; the three patterns are tried in order with `re.match`; an
input matching none of them is returned unchanged. -/
def convert_date_format (s : String) : Option String :=
  if s.isEmpty then none
  else
    let cs := s.toList
    match matchP1 cs with
    | some (d, t, tz) => some ⟨assembleDate d (some t) tz⟩
    | none =>
      match matchP2 cs with
      | some (d, t, tz) => some ⟨assembleDate d (some t) tz⟩
      | none =>
        match matchP3 cs with
        | some d => some ⟨assembleDate d none none⟩
        | none => some s

/-! ## formater.py: clean_title (lines 80-98) -/

/-- The level characters of the `clean_title` patterns: `[一二三四五六七八1-8]`. -/
def levelChars : List Char :=
  ['一', '二', '三', '四', '五', '六', '七', '八', '1', '2', '3', '4', '5', '6', '7', '8']

/-- One `re.sub(pattern, '', title)` step of `clean_title` for
`^【GESP】(C\+\+)?\s*[一二三四五六七八1-8]级.*?[，,]?\s*` (with the `C\+\+`
present when `cpp` is true).  Since `^` only anchors at position 0, at most
one replacement happens.  The lazy `.*?` is followed only by optional
pieces, which can always match the empty string, so the lazy quantifier
never consumes anything; the greedy optional `[，,]?` then eats one comma
when (and only when) it immediately follows `级`, and the greedy `\s*` eats
the whitespace after that.  The regex therefore removes exactly
`【GESP】(C++)?\s*X级[，,]?\s*`. -/
def subGespLevel (cpp : Bool) (cs : List Char) : List Char :=
  let step : Option (List Char) := do
    let r1 ← takeLit '【' cs
    let r2 ← takeLit 'G' r1
    let r3 ← takeLit 'E' r2
    let r4 ← takeLit 'S' r3
    let r5 ← takeLit 'P' r4
    let r6 ← takeLit '】' r5
    let r7 ←
      if cpp then do
        let a ← takeLit 'C' r6
        let b ← takeLit '+' a
        takeLit '+' b
      else some r6
    let r8 := takeSpaces r7
    match r8 with
    | c :: r9 =>
      if levelChars.contains c then do
        let r10 ← takeLit '级' r9
        let r11 :=
          match r10 with
          | d :: r11' => if d = '，' || d = ',' then r11' else r10
          | [] => r10
        some (takeSpaces r11)
      else none
    | [] => none
  (step).getD cs

/-- formater.py `clean_title` (lines 80-98): apply the `C\+\+` pattern, then
the plain pattern, strip the result, and fall back to the original title if
stripping left nothing. -/
def clean_title (s : String) : String :=
  if s.isEmpty then s
  else
    let t := subGespLevel false (subGespLevel true s.toList)
    let c := pyStrip t
    if c.isEmpty then s else ⟨c⟩

/-! ## formater.py: parse_date_for_sorting (lines 127-151) -/

/-- Match a sequence of literal characters. -/
def takeLits : List Char → List Char → Option (List Char)
  | [], cs => some cs
  | _ :: _, [] => none
  | l :: ls, c :: cs => if c = l then takeLits ls cs else none

/-- Python `re.search`: try the anchored matcher at every position, left to
right, returning the leftmost match. -/
def searchA {α : Type} (m : List Char → Option α) : List Char → Option α
  | [] => m []
  | c :: t =>
    match m (c :: t) with
    | some r => some r
    | none => searchA m t

/-- Numeric value of a digit group. -/
def digitsVal (ds : List Char) : Nat :=
  ds.foldl (fun n c => n * 10 + (c.toNat - 48)) 0

/-- A `datetime` value, reduced to its six components.  `datetime.min` is
`(1, 1, 1, 0, 0, 0)`; comparison is lexicographic via `keyList`. -/
structure DateKey where
  y : Nat
  mo : Nat
  d : Nat
  h : Nat
  mi : Nat
  s : Nat
  deriving DecidableEq, Repr

def keyList (k : DateKey) : List Nat := [k.y, k.mo, k.d, k.h, k.mi, k.s]

def dtMin : DateKey := ⟨1, 1, 1, 0, 0, 0⟩

def isLeapYear (y : Nat) : Bool :=
  y % 4 = 0 && (y % 100 ≠ 0 || y % 400 = 0)

def daysInMonth (y m : Nat) : Nat :=
  if m = 2 then (if isLeapYear y then 29 else 28)
  else if m = 4 || m = 6 || m = 9 || m = 11 then 30
  else 31

/-- The range checks `datetime.strptime` performs on an already
shape-matched `%Y-%m-%d` group (year 0 and impossible month/day raise
`ValueError`). -/
def validYMD (y mo d : Nat) : Bool :=
  1 ≤ y && 1 ≤ mo && mo ≤ 12 && 1 ≤ d && d ≤ daysInMonth y mo

/-- The range checks for `%H:%M:%S` (a missing seconds group passes 0). -/
def validHMS (h mi s : Nat) : Bool :=
  h ≤ 23 && mi ≤ 59 && s ≤ 59

/-- Search pattern `(\d{4}-\d{2}-\d{2})T(\d{2}:\d{2}:\d{2})`: groups as
(y, mo, d, h, mi, s) digit values. -/
def searchS1 (cs : List Char) : Option (Nat × Nat × Nat × Nat × Nat × Nat) :=
  searchA (fun cs => do
    let (y, r1) ← takeDigits 4 cs
    let r2 ← takeLit '-' r1
    let (mo, r3) ← takeDigits 2 r2
    let r4 ← takeLit '-' r3
    let (d, r5) ← takeDigits 2 r4
    let r6 ← takeLit 'T' r5
    let (h, r7) ← takeDigits 2 r6
    let r8 ← takeLit ':' r7
    let (mi, r9) ← takeDigits 2 r8
    let r10 ← takeLit ':' r9
    let (s, _) ← takeDigits 2 r10
    some (digitsVal y, digitsVal mo, digitsVal d, digitsVal h, digitsVal mi, digitsVal s)) cs

/-- Search pattern `(\d{4}-\d{2}-\d{2})\s+(\d{2}:\d{2})`. -/
def searchS2 (cs : List Char) : Option (Nat × Nat × Nat × Nat × Nat) :=
  searchA (fun cs => do
    let (y, r1) ← takeDigits 4 cs
    let r2 ← takeLit '-' r1
    let (mo, r3) ← takeDigits 2 r2
    let r4 ← takeLit '-' r3
    let (d, r5) ← takeDigits 2 r4
    let r6 ← takeSpaces1 r5
    let (h, r7) ← takeDigits 2 r6
    let r8 ← takeLit ':' r7
    let (mi, _) ← takeDigits 2 r8
    some (digitsVal y, digitsVal mo, digitsVal d, digitsVal h, digitsVal mi)) cs

/-- Search pattern `(\d{4}-\d{2}-\d{2})`. -/
def searchS3 (cs : List Char) : Option (Nat × Nat × Nat) :=
  searchA (fun cs => do
    let (y, r1) ← takeDigits 4 cs
    let r2 ← takeLit '-' r1
    let (mo, r3) ← takeDigits 2 r2
    let r4 ← takeLit '-' r3
    let (d, _) ← takeDigits 2 r4
    some (digitsVal y, digitsVal mo, digitsVal d)) cs

/-- formater.py `parse_date_for_sorting` (lines 127-151): empty input gives
`datetime.min`; otherwise the three patterns are searched in order, a
`ValueError` from `strptime` (range check failure) falls through to the
next pattern, and `datetime.min` is the final fallback. -/
def parse_date_for_sorting (s : String) : DateKey :=
  if s.isEmpty then dtMin
  else
    let cs := s.toList
    let t1 : Option DateKey :=
      match searchS1 cs with
      | some (y, mo, d, h, mi, sec) =>
        if validYMD y mo d && validHMS h mi sec then some ⟨y, mo, d, h, mi, sec⟩ else none
      | none => none
    let t2 : Option DateKey :=
      match searchS2 cs with
      | some (y, mo, d, h, mi) =>
        if validYMD y mo d && validHMS h mi 0 then some ⟨y, mo, d, h, mi, 0⟩ else none
      | none => none
    let t3 : Option DateKey :=
      match searchS3 cs with
      | some (y, mo, d) => if validYMD y mo d then some ⟨y, mo, d, 0, 0, 0⟩ else none
      | none => none
    ((t1.orElse fun _ => t2).orElse fun _ => t3).getD dtMin

/-! ## formater.py: extract_slug_from_filename (lines 120-125) -/

/-- Drop the last `n` characters. -/
def dropLastN (n : Nat) (cs : List Char) : List Char :=
  cs.take (cs.length - n)

/-- The anchored pattern `^\d{4}-\d{2}-\d{2}-(.+)\.md$`.  `$` matches at
the end of the string or just before a terminating newline; `.` does not
match a newline; the greedy `(.+)` fixes the group to everything between
the date prefix and the `\.md` chosen by the `$` position. -/
def matchSlugPat (cs : List Char) : Option (List Char) := do
  let (_, r1) ← takeDate10 cs
  let rest ← takeLit '-' r1
  let g ←
    if (".md\n".toList).isSuffixOf rest then some (dropLastN 4 rest)
    else if (".md".toList).isSuffixOf rest then some (dropLastN 3 rest)
    else none
  if g ≠ [] ∧ ¬ g.contains '\n' then some g else none

/-- formater.py `extract_slug_from_filename` (lines 120-125): keep the
group of the date-prefix pattern, or fall back to
`filename.replace(".md", "")`. -/
def extract_slug_from_filename (s : String) : String :=
  match matchSlugPat s.toList with
  | some g => ⟨g⟩
  | none => ⟨replaceDelMd s.toList⟩

/-! ## formater.py: remove_include_lines (lines 11-19) and line splitting -/

/-- Python `str.split` on a single newline (`''.split` gives `['']`). -/
def splitNl : List Char → List (List Char)
  | [] => [[]]
  | c :: t =>
    if c = '\n' then [] :: splitNl t
    else
      match splitNl t with
      | [] => [[c]]
      | l :: ls => (c :: l) :: ls

/-- Python `'\n'.join`. -/
def joinNl : List (List Char) → List Char
  | [] => []
  | [l] => l
  | l :: ls => l ++ '\n' :: joinNl ls

/-- The filter needle of `remove_include_lines` (the braces of the literal
are written as escapes). -/
def includeNeedle : List Char := "\x7b% include ".toList

/-- formater.py `remove_include_lines` (lines 11-19). -/
def remove_include_lines (s : String) : String :=
  if s.isEmpty then s
  else ⟨joinNl ((splitNl s.toList).filter fun l => ¬ isSubstr includeNeedle l)⟩

/-! ## Frontmatter and document model

The YAML header is abstracted to the five fields the normalization rules of
formater.py read or write; all other fields pass through every rule
unchanged and are omitted.  A document whose header the parser rejects is
represented with `fm = none`; `process_markdown_files` skips it. -/

structure Frontmatter where
  title : Option String
  date : Option String
  slug : Option String
  type : Option String
  weight : Option Int
  deriving DecidableEq, Repr

structure Doc where
  filename : String
  fm : Option Frontmatter
  body : String
  deriving DecidableEq, Repr

/-- The `files_info` record built at formater.py lines 433-448:
filename, (mutable) frontmatter, sort date, body after
`remove_include_lines`, plus the on-disk original used when no rule fires
and the file is not rewritten. -/
structure DocInfo where
  filename : String
  fm : Frontmatter
  key : DateKey
  body0 : String
  origFm : Frontmatter
  origBody : String
  deriving DecidableEq, Repr

def mkInfo (d : Doc) : Option DocInfo :=
  d.fm.map fun fm =>
    ⟨d.filename, fm, parse_date_for_sorting (fm.date.getD ""), remove_include_lines d.body,
      fm, d.body⟩

/-- formater.py `get_max_weight_in_directory` (lines 205-235) on the
directory's current contents: the maximum integer `weight` of any document
with a parseable header, starting from 0. -/
def get_max_weight_in_directory (l : List Doc) : Int :=
  l.foldl
    (fun m d =>
      match d.fm with
      | some fm =>
        match fm.weight with
        | some w => if w > m then w else m
        | none => m
      | none => m)
    0

/-- The sort key of formater.py line 198, `(x[3], x[0])`: parsed date, then
filename.  Flattened into one `List Nat` (six date components, then the
code points of the filename) so lexicographic list comparison is exactly
Python's tuple comparison. -/
def sortKeyL (d : DocInfo) : List Nat :=
  keyList d.key ++ d.filename.toList.map Char.toNat

def docLE (a b : DocInfo) : Prop := sortKeyL a ≤ sortKeyL b

instance : DecidableRel docLE := fun a b =>
  inferInstanceAs (Decidable (sortKeyL a ≤ sortKeyL b))

instance : IsTotal DocInfo docLE := ⟨fun a b => le_total (sortKeyL a) (sortKeyL b)⟩

instance : IsTrans DocInfo docLE := ⟨fun _ _ _ h1 h2 => le_trans h1 h2⟩

/-- `sorted(files_info, key=lambda x: (x[3], x[0]))`: Python's sort is
stable and `List.insertionSort` is stable, so they agree. -/
def sortInfos (l : List DocInfo) : List DocInfo := List.insertionSort docLE l

/-- The `enumerate(sorted_files, 1)` loop of `assign_weights_by_date`
(line 200-201): the i-th document of the sorted list gets weight
`max_existing_weight + i`, overwriting any existing weight. -/
def setWeightFrom (w : Int) : List DocInfo → List DocInfo
  | [] => []
  | d :: t => { d with fm := { d.fm with weight := some (w + 1) } } :: setWeightFrom (w + 1) t

/-- formater.py `assign_weights_by_date` (lines 192-203). -/
def assign_weights_by_date (files : List DocInfo) (disk : List Doc) : List DocInfo :=
  setWeightFrom (get_max_weight_in_directory disk) (sortInfos files)

/-! ## formater.py: the per-file rules of process_markdown_files (lines 464-531) -/

/-- Rule 1 (lines 471-476): rewrite `date` when `convert_date_format`
returns a truthy value different from the current one. -/
def dateRule (fm : Frontmatter) : Frontmatter × Bool :=
  match fm.date with
  | none => (fm, false)
  | some ds =>
    match convert_date_format ds with
    | none => (fm, false)
    | some nd => if nd ≠ ds then ({ fm with date := some nd }, true) else (fm, false)

/-- Rule 2 (lines 479-485): clean the GESP tag off `title`. -/
def titleRule (fm : Frontmatter) : Frontmatter × Bool :=
  match fm.title with
  | none => (fm, false)
  | some t =>
    let c := clean_title t
    if c ≠ t then ({ fm with title := some c }, true) else (fm, false)

/-- Rule 3 (lines 488-492): set `slug` from the filename. -/
def slugRule (fn : String) (fm : Frontmatter) : Frontmatter × Bool :=
  let s := extract_slug_from_filename fn
  if fm.slug ≠ some s then ({ fm with slug := some s }, true) else (fm, false)

/-- Rule 4 (lines 495-498): set `type` to `docs`. -/
def typeRule (fm : Frontmatter) : Frontmatter × Bool :=
  if fm.type ≠ some "docs" then ({ fm with type := some "docs" }, true) else (fm, false)

/-- One iteration of the write loop (lines 464-531).  The frontmatter
already carries the weight injected by `assign_weights_by_date`, so the
`'weight' not in frontmatter` disjunct of line 504 never holds; the file is
rewritten (with the include-filtered body) exactly when a rule fired,
otherwise the on-disk document is left as it was. -/
def processOne (d : DocInfo) : Doc :=
  let p1 := dateRule d.fm
  let p2 := titleRule p1.1
  let p3 := slugRule d.filename p2.1
  let p4 := typeRule p3.1
  let updated := p1.2 || p2.2 || p3.2 || p4.2
  if updated || p4.1.weight.isNone then ⟨d.filename, some p4.1, d.body0⟩
  else ⟨d.filename, some d.origFm, d.origBody⟩

/-- formater.py `process_markdown_files` (lines 409-535), restricted to one
directory (directories are processed independently; the walk skips files
starting with `_`, which are modelled as absent from the list).  Documents
whose header does not parse are skipped unchanged; the rest go through
weight assignment and the four rules.  The output lists the directory's
files after the pass; on-disk order is immaterial, so theorems about this
function compare contents, not positions. -/
def process_markdown_files (l : List Doc) : List Doc :=
  let infos := l.filterMap mkInfo
  let sorted := assign_weights_by_date infos l
  l.filter (fun d => d.fm.isNone) ++ sorted.map processOne

/-- A document info with its (mutable) weight field cleared; used to state
that weight assignment changes nothing but weights. -/
def eraseW (d : DocInfo) : DocInfo := { d with fm := { d.fm with weight := none } }

/-- All four normalization rules leave this frontmatter unchanged. -/
def rulesClean (fn : String) (fm : Frontmatter) : Bool :=
  !(dateRule fm).2 && !(titleRule fm).2 && !(slugRule fn fm).2 && !(typeRule fm).2

/-- A document the per-file rules of `process_markdown_files` cannot touch
(unparseable documents are skipped, so they count as normalized). -/
def docNormalized (d : Doc) : Bool :=
  match d.fm with
  | none => true
  | some fm => rulesClean d.filename fm

/-- Concrete two-document directory for the weight-assignment
counterexample: one document already carries weight 5, the other none. -/
def cexDocsW : List Doc :=
  [⟨"2020-01-01-a.md",
    some ⟨some "A", some "2020-01-01T20:00:00+0800", some "a", some "docs", some 5⟩, "x"⟩,
   ⟨"2020-01-02-b.md",
    some ⟨some "B", some "2020-01-02T20:00:00+0800", some "b", some "docs", none⟩, "y"⟩]

/-- Concrete one-document directory for the idempotence counterexample:
its title still holds a second strippable GESP tag after one cleanup. -/
def cexDocsI : List Doc :=
  [⟨"2020-01-01-x.md",
    some ⟨some "【GESP】一级【GESP】一级a", some "2020-01-01", none, none, none⟩, "b"⟩]

/-- The document as it stands on disk, rebuilt from a `DocInfo` record; when
no rule fires (and the in-memory frontmatter carries a weight) the write loop
leaves exactly this file in place. -/
def origDoc (e : DocInfo) : Doc := ⟨e.filename, some e.origFm, e.origBody⟩

/-- Concrete one-document directory on which the idempotence proviso holds:
the title carries no GESP tag, so one cleanup pass is a `clean_title` fixed
point. -/
def lwI : List Doc :=
  [⟨"2021-03-04-w.md", some ⟨some "a", some "2021-03-04", none, none, none⟩, "c"⟩]

/-! ## Frontmatter text parsing (parse_frontmatter, three identical copies:
formater.py 21-35, fix_empty_titles.py 34-57, gesp_file_organizer.py 111-134) -/

/-- Find the first occurrence of `\n---\n` (the lazy `(.*?)` of the
frontmatter regex): returns the text before it and the text after it. -/
def splitAtMarker : List Char → Option (List Char × List Char)
  | [] => none
  | c :: t =>
    if ("\n---\n".toList).isPrefixOf (c :: t) then some ([], (c :: t).drop 5)
    else (splitAtMarker t).map fun p => (c :: p.1, p.2)

/-- The anchored frontmatter regex `^---\n(.*?)\n---\n(.*)$` with `DOTALL`:
the content must begin with `---\n`, the lazy group ends at the first
`\n---\n`, and the second group (with `$`) takes everything after it. -/
def fmSplit (cs : List Char) : Option (List Char × List Char) :=
  match takeLits ("---\n".toList) cs with
  | some rest => splitAtMarker rest
  | none => none

/-- `parse_frontmatter`, with `yaml.safe_load` abstracted: `yamlOk h` is
false exactly when loading raises `YAMLError`, and `yamlVal h` is the
loaded value otherwise (`none` models YAML null, which Python returns
together with the body). -/
def parse_frontmatter {α : Type} (yamlOk : String → Bool) (yamlVal : String → Option α)
    (content : String) : Option α × String :=
  match fmSplit content.toList with
  | none => (none, content)
  | some (h, b) => if yamlOk ⟨h⟩ then (yamlVal ⟨h⟩, ⟨b⟩) else (none, content)

/-! ## modify_md_titles.py: heading/title reconciliation -/

/-- The pattern `^(##\s+)(.+)$` of `update_first_h2_title` (line 81),
applied to an already stripped line (which therefore contains no newline
and ends in a non-space): group 1 is `##` plus the greedy whitespace run,
group 2 the nonempty rest. -/
def matchH2 (cs : List Char) : Option (List Char × List Char) := do
  let r1 ← takeLits ['#', '#'] cs
  let sp := r1.takeWhile isPySpace
  let txt := r1.dropWhile isPySpace
  if sp ≠ [] ∧ txt ≠ [] then some ('#' :: '#' :: sp, txt) else none

/-- modify_md_titles.py `find_first_h2_title` (lines 50-61): the stripped
group of the first line whose stripped form matches `^##\s+(.+)$`. -/
def findH2Lines : List (List Char) → Option (List Char)
  | [] => none
  | l :: ls =>
    match matchH2 (pyStrip l) with
    | some (_, txt) => some (pyStrip txt)
    | none => findH2Lines ls

def find_first_h2_title (s : String) : Option String :=
  (findH2Lines (splitNl s.toList)).map fun cs => ⟨cs⟩

/-- modify_md_titles.py `update_first_h2_title` (lines 78-92): replace the
first matching line with its `##`-plus-whitespace group followed by the new
title; later lines are untouched. -/
def updateH2Lines (nt : List Char) : List (List Char) → List (List Char)
  | [] => []
  | l :: ls =>
    match matchH2 (pyStrip l) with
    | some (pfx, _) => (pfx ++ nt) :: ls
    | none => l :: updateH2Lines nt ls

def update_first_h2_title (s : String) (nt : String) : String :=
  ⟨joinNl (updateH2Lines nt.toList (splitNl s.toList))⟩

/-- The title decision of `process_md_file` (lines 129-149): keep the
heading if it already contains the title, otherwise append the title to the
heading with one space. -/
def reconcile_title (title h2 : String) : String :=
  if isSubstr title.toList h2.toList then h2 else h2 ++ " " ++ title

/-- The title/body core of `process_md_file` (lines 104-158) once a
frontmatter title and a first level-2 heading exist: the new title and the
body with its first heading rewritten to the new title. -/
def process_md_file_core (title body : String) : String × String :=
  match find_first_h2_title body with
  | none => (title, body)
  | some h2 =>
    let nt := reconcile_title title h2
    (nt, update_first_h2_title body nt)

/-! ## gesp_file_organizer.py: classification and copying -/

/-- The two frontmatter fields `determine_subdirectory` reads, with the
Python defaults `''` and `[]` already applied. -/
structure GFm where
  title : String
  categories : List String
  deriving DecidableEq, Repr

/-- `level_mapping` (lines 38-41), in insertion order. -/
def level_mapping : List (String × String) :=
  [("一级", "1"), ("二级", "2"), ("三级", "3"), ("四级", "4"),
   ("五级", "5"), ("六级", "6"), ("七级", "7"), ("八级", "8")]

/-- `extract_level_from_categories` (lines 136-153): the first category
(in list order) containing a level token, tokens tried in mapping order. -/
def extract_level_from_categories (cats : List String) : Option String :=
  cats.findSome? fun cat =>
    level_mapping.findSome? fun p =>
      if isSubstr p.1.toList cat.toList then some p.2 else none

/-- `determine_subdirectory` (lines 155-193). -/
def determine_subdirectory (fm : GFm) (filename : String) : Option String :=
  match extract_level_from_categories fm.categories with
  | none => none
  | some level =>
    let subdir :=
      if isSubstr ("真题".toList) fm.title.toList then "codereal"
      else if isSubstr ("练习".toList) fm.title.toList then "practice"
      else if isSubstr ("syllabus".toList) (pyLower filename.toList) then "syllabus"
      else if isSubstr ("knowledge".toList) (pyLower filename.toList) then "knowledge"
      else "others"
    some (level ++ "/" ++ subdir)

/-- `is_gesp_file` (lines 195-207): `^\d{4}-\d{2}-\d{2}-gesp-.*\.md$`
under `re.match` (`$` also matches before one terminating newline, `.`
excludes newlines, and `.*` may be empty). -/
def is_gesp_file (s : String) : Bool :=
  (Option.isSome <| do
    let (_, r1) ← takeDate10 s.toList
    let rest ← takeLits ("-gesp-".toList) r1
    let g ←
      if (".md\n".toList).isSuffixOf rest then some (dropLastN 4 rest)
      else if (".md".toList).isSuffixOf rest then some (dropLastN 3 rest)
      else none
    if ¬ g.contains '\n' then some () else none)

/-- A source file offered to the organizer.  `fm = none` models a header
that fails to parse or is falsy (line 328 `if not frontmatter`). -/
structure SrcFile where
  filename : String
  fm : Option GFm
  content : String
  deriving DecidableEq, Repr

/-- A file in the destination tree: directory part of its relative path,
its name, and its content. -/
structure TargetEntry where
  dir : String
  filename : String
  content : String
  deriving DecidableEq, Repr

/-- `check_file_exists_in_target` (lines 209-226): a cache lookup when the
cache is in use, otherwise an `rglob` filename search over the destination
tree. -/
def check_file_exists_in_target (useCache : Bool) (cache : List (String × String))
    (tree : List TargetEntry) (filename : String) : Option String :=
  if useCache then (cache.find? fun p => p.1 = filename).map (·.2)
  else (tree.find? fun e => e.filename = filename).map fun e => e.dir ++ "/" ++ e.filename

/-- The per-file body of the `analyze_files` loop (lines 317-349): skip
non-GESP filenames and unparseable or unclassifiable files; report a file
whose name the existence check finds; otherwise add it to the copy plan. -/
def analyzeStep (useCache : Bool) (cache : List (String × String))
    (tree : List TargetEntry) (acc : List (String × SrcFile) × List (String × String))
    (f : SrcFile) : List (String × SrcFile) × List (String × String) :=
  if is_gesp_file f.filename then
    match f.fm with
    | some fm =>
      match determine_subdirectory fm f.filename with
      | some subdir =>
        match check_file_exists_in_target useCache cache tree f.filename with
        | some p => (acc.1, acc.2 ++ [(p, f.filename)])
        | none => (acc.1 ++ [(subdir, f)], acc.2)
      | none => acc
    | none => acc
  else acc

/-- `analyze_files` (lines 302-351): returns the copy plan (flattened to
scan order; Python groups it by target subdirectory, which only permutes
the copies) and the duplicate report entries `(existing path, filename)`. -/
def analyze_files (useCache : Bool) (cache : List (String × String))
    (tree : List TargetEntry) (files : List SrcFile) :
    List (String × SrcFile) × List (String × String) :=
  files.foldl (analyzeStep useCache cache tree) ([], [])

/-- `shutil.copy2` to `target_dir/subdir/filename`: replace the entry at
that exact path if one exists, otherwise create it. -/
def upsert (t : List TargetEntry) (e : TargetEntry) : List TargetEntry :=
  if t.any fun x => x.dir = e.dir && x.filename = e.filename then
    t.map fun x => if x.dir = e.dir ∧ x.filename = e.filename then e else x
  else t ++ [e]

/-- `execute_copy_plan` (lines 353-415), destination-state part: perform
every planned copy. -/
def execute_copy_plan (tree : List TargetEntry) (plan : List (String × SrcFile)) :
    List TargetEntry :=
  plan.foldl (fun t p => upsert t ⟨p.1, p.2.filename, p.2.content⟩) tree

/-- `organize_files` (lines 417-476), destination-state part: analyze, then
execute the copy plan. -/
def organize_files (useCache : Bool) (cache : List (String × String))
    (tree : List TargetEntry) (files : List SrcFile) : List TargetEntry :=
  execute_copy_plan tree (analyze_files useCache cache tree files).1

/-- A title value as `extract_title_from_frontmatter` produces for ordinary
(unquoted) titles: nonempty, no surrounding whitespace, single-line.  Used
to state the heading-rewrite half of the reconciliation claim. -/
def titleOk (t : String) : Bool :=
  (match t.toList.head? with
   | some a => !isPySpace a
   | none => false) &&
  (match t.toList.getLast? with
   | some a => !isPySpace a
   | none => false) &&
  !(t.toList.contains '\n')

/-- The canonical timestamp shape `yyyy-MM-ddTHH:mm:ss+ZZZZ` claimed for
`convert_date_format` outputs. -/
def isCanonicalTs (s : String) : Bool :=
  (Option.isSome <| do
    let (_, r1) ← takeDate10 s.toList
    let r2 ← takeLit 'T' r1
    let (_, r3) ← takeHMS r2
    let r4 ← takeLit '+' r3
    let (_, r5) ← takeDigits 4 r4
    if r5 = [] then some () else none)

/-! # Theorems -/

/-! ## Matcher shape lemmas -/

theorem takeDigits_eq : ∀ {n : Nat} {cs ds r : List Char},
    takeDigits n cs = some (ds, r) →
    cs = ds ++ r ∧ ds.length = n ∧ ds.all isDigitChar = true := by
  intro n
  induction n with
  | zero =>
    intro cs ds r h
    simp only [takeDigits, Option.some_inj, Prod.mk.injEq] at h
    rcases h with ⟨h1, h2⟩
    subst h1
    subst h2
    simp
  | succ n ih =>
    intro cs ds r h
    match cs with
    | [] => exact Option.noConfusion h
    | c :: cs' =>
      simp only [takeDigits] at h
      by_cases hc : isDigitChar c
      · rw [if_pos hc] at h
        rcases hmap : takeDigits n cs' with _ | ⟨ds', r'⟩ <;> rw [hmap] at h
        · exact Option.noConfusion h
        · simp only [Option.map_some', Option.some_inj, Prod.mk.injEq] at h
          rcases h with ⟨h1, h2⟩
          subst h2
          rcases ih hmap with ⟨e1, e2, e3⟩
          refine ⟨?_, ?_, ?_⟩
          · rw [← h1]
            simp [e1]
          · rw [← h1]
            simp [e2]
          · rw [← h1]
            simp only [List.all_cons, hc, e3, Bool.and_self]
      · rw [if_neg hc] at h
        exact Option.noConfusion h

theorem takeDigits_append : ∀ {ds : List Char} {n : Nat} (r : List Char),
    ds.length = n → ds.all isDigitChar = true → takeDigits n (ds ++ r) = some (ds, r) := by
  intro ds
  induction ds with
  | nil =>
    intro n r hl _
    subst hl
    simp [takeDigits]
  | cons c t ih =>
    intro n r hl ha
    subst hl
    simp only [List.all_cons, Bool.and_eq_true] at ha
    have hrec := ih r rfl ha.2
    simp [takeDigits, ha.1, hrec]

theorem takeLit_eq {c : Char} {cs r : List Char} (h : takeLit c cs = some r) :
    cs = c :: r := by
  match cs with
  | [] => exact Option.noConfusion h
  | d :: t =>
    simp only [takeLit] at h
    by_cases hd : d = c
    · rw [if_pos hd] at h
      simp only [Option.some_inj] at h
      rw [hd, h]
    · rw [if_neg hd] at h
      exact Option.noConfusion h

theorem takeLit_self (c : Char) (r : List Char) : takeLit c (c :: r) = some r := by
  simp [takeLit]

theorem takeLits_eq : ∀ {ls cs r : List Char}, takeLits ls cs = some r → cs = ls ++ r := by
  intro ls
  induction ls with
  | nil =>
    intro cs r h
    simp only [takeLits, Option.some_inj] at h
    simp [h]
  | cons l t ih =>
    intro cs r h
    match cs with
    | [] => exact Option.noConfusion h
    | c :: cs' =>
      simp only [takeLits] at h
      by_cases hc : c = l
      · rw [if_pos hc] at h
        rw [List.cons_append, ← ih h, hc]
      · rw [if_neg hc] at h
        exact Option.noConfusion h

theorem takeLits_self : ∀ (ls r : List Char), takeLits ls (ls ++ r) = some r := by
  intro ls
  induction ls with
  | nil => intro r; rfl
  | cons l t ih => intro r; simp [takeLits, ih]

/-- Decomposition of a successful `takeDate10`. -/
theorem takeDate10_eq {cs d r : List Char} (h : takeDate10 cs = some (d, r)) :
    ∃ y mo dd, d = y ++ '-' :: mo ++ '-' :: dd ∧ cs = d ++ r ∧
      y.length = 4 ∧ mo.length = 2 ∧ dd.length = 2 ∧
      y.all isDigitChar = true ∧ mo.all isDigitChar = true ∧ dd.all isDigitChar = true := by
  unfold takeDate10 at h
  simp only [bind, Option.bind] at h
  rcases h4 : takeDigits 4 cs with _ | ⟨y, r1⟩ <;> rw [h4] at h <;> dsimp only at h
  · exact Option.noConfusion h
  · rcases hl1 : takeLit '-' r1 with _ | r2 <;> rw [hl1] at h <;> dsimp only at h
    · exact Option.noConfusion h
    · rcases h2 : takeDigits 2 r2 with _ | ⟨mo, r3⟩ <;> rw [h2] at h <;> dsimp only at h
      · exact Option.noConfusion h
      · rcases hl2 : takeLit '-' r3 with _ | r4 <;> rw [hl2] at h <;> dsimp only at h
        · exact Option.noConfusion h
        · rcases h3 : takeDigits 2 r4 with _ | ⟨dd, r5⟩ <;> rw [h3] at h <;> dsimp only at h
          · exact Option.noConfusion h
          · simp only [Option.some_inj, Prod.mk.injEq] at h
            rcases h with ⟨hd, hr⟩
            subst hr
            rcases takeDigits_eq h4 with ⟨e4, l4, a4⟩
            rcases takeDigits_eq h2 with ⟨e2, l2, a2⟩
            rcases takeDigits_eq h3 with ⟨e3, l3, a3⟩
            refine ⟨y, mo, dd, hd.symm, ?_, l4, l2, l3, a4, a2, a3⟩
            rw [e4, takeLit_eq hl1, e2, takeLit_eq hl2, e3, ← hd]
            simp

/-- Rebuilding a date prefix: `takeDate10` consumes exactly it. -/
theorem takeDate10_build {y mo dd : List Char} (r : List Char)
    (l4 : y.length = 4) (l2 : mo.length = 2) (l3 : dd.length = 2)
    (a4 : y.all isDigitChar = true) (a2 : mo.all isDigitChar = true)
    (a3 : dd.all isDigitChar = true) :
    takeDate10 ((y ++ '-' :: mo ++ '-' :: dd) ++ r) = some (y ++ '-' :: mo ++ '-' :: dd, r) := by
  unfold takeDate10
  simp only [bind, Option.bind]
  have e : (y ++ '-' :: mo ++ '-' :: dd) ++ r = y ++ '-' :: (mo ++ '-' :: (dd ++ r)) := by
    simp
  rw [e, takeDigits_append _ l4 a4]
  dsimp only
  rw [takeLit_self]
  dsimp only
  rw [takeDigits_append _ l2 a2]
  dsimp only
  rw [takeLit_self]
  dsimp only
  rw [takeDigits_append _ l3 a3]

/-- A successful `takeDate10` consumes a prefix it will consume again in
front of any other suffix. -/
theorem takeDate10_again {cs d r : List Char} (h : takeDate10 cs = some (d, r)) :
    ∀ r', takeDate10 (d ++ r') = some (d, r') := by
  rcases takeDate10_eq h with ⟨y, mo, dd, hd, _, l4, l2, l3, a4, a2, a3⟩
  intro r'
  rw [hd]
  exact takeDate10_build r' l4 l2 l3 a4 a2 a3

/-- Decomposition of a successful `takeHM` (the 5-character `HH:MM` group). -/
theorem takeHM_eq {cs t r : List Char} (h : takeHM cs = some (t, r)) :
    ∃ hh mm, t = hh ++ ':' :: mm ∧ cs = t ++ r ∧ t.length = 5 ∧
      hh.length = 2 ∧ mm.length = 2 ∧
      hh.all isDigitChar = true ∧ mm.all isDigitChar = true := by
  unfold takeHM at h
  simp only [bind, Option.bind] at h
  rcases h1 : takeDigits 2 cs with _ | ⟨hh, r1⟩ <;> rw [h1] at h <;> dsimp only at h
  · exact Option.noConfusion h
  · rcases hl : takeLit ':' r1 with _ | r2 <;> rw [hl] at h <;> dsimp only at h
    · exact Option.noConfusion h
    · rcases h2 : takeDigits 2 r2 with _ | ⟨mm, r3⟩ <;> rw [h2] at h <;> dsimp only at h
      · exact Option.noConfusion h
      · simp only [Option.some_inj, Prod.mk.injEq] at h
        rcases h with ⟨ht, hr⟩
        subst hr
        rcases takeDigits_eq h1 with ⟨e1, l1, a1⟩
        rcases takeDigits_eq h2 with ⟨e2, l2, a2⟩
        refine ⟨hh, mm, ht.symm, ?_, ?_, l1, l2, a1, a2⟩
        · rw [e1, takeLit_eq hl, e2, ← ht]
          simp
        · rw [← ht]
          simp [l1, l2]

theorem takeHM_build {hh mm : List Char} (r : List Char)
    (l1 : hh.length = 2) (l2 : mm.length = 2)
    (a1 : hh.all isDigitChar = true) (a2 : mm.all isDigitChar = true) :
    takeHM ((hh ++ ':' :: mm) ++ r) = some (hh ++ ':' :: mm, r) := by
  unfold takeHM
  simp only [bind, Option.bind]
  have e : (hh ++ ':' :: mm) ++ r = hh ++ ':' :: (mm ++ r) := by simp
  rw [e, takeDigits_append _ l1 a1]
  dsimp only
  rw [takeLit_self]
  dsimp only
  rw [takeDigits_append _ l2 a2]

/-- Decomposition of a successful `takeHMS` (the 8-character `HH:MM:SS`
group). -/
theorem takeHMS_eq {cs t r : List Char} (h : takeHMS cs = some (t, r)) :
    ∃ hm ss, t = hm ++ ':' :: ss ∧ cs = t ++ r ∧ t.length = 8 ∧
      ss.length = 2 ∧ ss.all isDigitChar = true ∧
      (∀ r', takeHM (hm ++ r') = some (hm, r')) ∧ hm.length = 5 := by
  unfold takeHMS at h
  simp only [bind, Option.bind] at h
  rcases h1 : takeHM cs with _ | ⟨hm, r1⟩ <;> rw [h1] at h <;> dsimp only at h
  · exact Option.noConfusion h
  · rcases hl : takeLit ':' r1 with _ | r2 <;> rw [hl] at h <;> dsimp only at h
    · exact Option.noConfusion h
    · rcases h2 : takeDigits 2 r2 with _ | ⟨ss, r3⟩ <;> rw [h2] at h <;> dsimp only at h
      · exact Option.noConfusion h
      · simp only [Option.some_inj, Prod.mk.injEq] at h
        rcases h with ⟨ht, hr⟩
        subst hr
        rcases takeHM_eq h1 with ⟨hh, mm, hhm, e1, l5, lh, lm, ah, am⟩
        rcases takeDigits_eq h2 with ⟨e2, l2, a2⟩
        refine ⟨hm, ss, ht.symm, ?_, ?_, l2, a2, ?_, l5⟩
        · rw [e1, takeLit_eq hl, e2, ← ht]
          simp
        · rw [← ht]
          simp [l5, l2]
        · intro r'
          rw [hhm]
          exact takeHM_build r' lh lm ah am

theorem takeHMS_build {hm ss : List Char} (r : List Char)
    (hhm : ∀ r', takeHM (hm ++ r') = some (hm, r'))
    (l2 : ss.length = 2) (a2 : ss.all isDigitChar = true) :
    takeHMS ((hm ++ ':' :: ss) ++ r) = some (hm ++ ':' :: ss, r) := by
  unfold takeHMS
  simp only [bind, Option.bind]
  have e : (hm ++ ':' :: ss) ++ r = hm ++ ':' :: (ss ++ r) := by simp
  rw [e, hhm]
  dsimp only
  rw [takeLit_self]
  dsimp only
  rw [takeDigits_append _ l2 a2]

/-- Decomposition of a successful optional-timezone match. -/
theorem takeTzOpt_eq {cs z r : List Char} (h : takeTzOpt cs = (some z, r)) :
    ∃ ds, z = '+' :: ds ∧ cs = z ++ r ∧ ds.length = 4 ∧ ds.all isDigitChar = true := by
  match cs with
  | [] => exact absurd h (by simp [takeTzOpt])
  | c :: t =>
    simp only [takeTzOpt] at h
    by_cases hc : c = '+'
    · rw [if_pos hc] at h
      subst hc
      rcases h4 : takeDigits 4 t with _ | ⟨ds, r'⟩ <;> rw [h4] at h
      · exact absurd h (by simp)
      · simp only [Prod.mk.injEq, Option.some_inj] at h
        rcases h with ⟨hz, hr⟩
        subst hr
        rcases takeDigits_eq h4 with ⟨e, l, a⟩
        refine ⟨ds, hz.symm, ?_, l, a⟩
        rw [← hz, e]
        simp
    · rw [if_neg hc] at h
      exact absurd h (by simp)

theorem takeTzOpt_build {ds : List Char} (r : List Char)
    (l : ds.length = 4) (a : ds.all isDigitChar = true) :
    takeTzOpt (('+' :: ds) ++ r) = (some ('+' :: ds), r) := by
  unfold takeTzOpt
  simp only [List.cons_append]
  rw [takeDigits_append _ l a]
  simp

theorem takeHM_again {cs t r : List Char} (h : takeHM cs = some (t, r)) :
    ∀ r', takeHM (t ++ r') = some (t, r') := by
  rcases takeHM_eq h with ⟨hh, mm, ht, _, _, l1, l2, a1, a2⟩
  intro r'
  rw [ht]
  exact takeHM_build r' l1 l2 a1 a2

theorem takeHMS_again {cs t r : List Char} (h : takeHMS cs = some (t, r)) :
    ∀ r', takeHMS (t ++ r') = some (t, r') := by
  rcases takeHMS_eq h with ⟨hm, ss, ht, _, _, l2, a2, hagain, _⟩
  intro r'
  rw [ht]
  exact takeHMS_build r' hagain l2 a2

theorem takeSpaces1_nonspace {c : Char} (r : List Char) (h : isPySpace c = false) :
    takeSpaces1 (c :: r) = none := by
  unfold takeSpaces1
  rw [List.dropWhile_cons_of_neg (by simp [h])]
  simp

theorem str_mk_ne_empty {cs : List Char} (h : cs ≠ []) : (⟨cs⟩ : String) ≠ "" := by
  intro he
  exact h (congrArg String.data he)

theorem isEmpty_false_of_ne {s : String} (h : s ≠ "") : s.isEmpty = false := by
  rcases he : s.isEmpty with _ | _
  · rfl
  · exact absurd (String.isEmpty_iff s |>.mp he) h

/-- Group shapes of a successful `matchP1`. -/
theorem matchP1_eq {cs d t : List Char} {tz : Option (List Char)}
    (h : matchP1 cs = some (d, t, tz)) :
    (∀ r', takeDate10 (d ++ r') = some (d, r')) ∧ d.length = 10 ∧
    t.length = 5 ∧ (∀ r', takeHM (t ++ r') = some (t, r')) ∧
    (∀ z, tz = some z → ∃ ds, z = '+' :: ds ∧ ds.length = 4 ∧ ds.all isDigitChar = true) := by
  unfold matchP1 at h
  simp only [bind, Option.bind] at h
  rcases h1 : takeDate10 cs with _ | ⟨d0, r1⟩ <;> rw [h1] at h <;> dsimp only at h
  · exact Option.noConfusion h
  · rcases h2 : takeSpaces1 r1 with _ | r2 <;> rw [h2] at h <;> dsimp only at h
    · exact Option.noConfusion h
    · rcases h3 : takeHM r2 with _ | ⟨t0, r3⟩ <;> rw [h3] at h <;> dsimp only at h
      · exact Option.noConfusion h
      · rcases h4 : takeTzOpt (takeSpaces r3) with ⟨tz0, r4⟩
        rw [h4] at h
        dsimp only at h
        simp only [Option.some_inj, Prod.mk.injEq] at h
        rcases h with ⟨rfl, rfl, rfl⟩
        refine ⟨takeDate10_again h1, ?_, ?_, takeHM_again h3, ?_⟩
        · rcases takeDate10_eq h1 with ⟨y, mo, dd, hdec, _, l4, l2, l3, _, _, _⟩
          rw [hdec]
          simp [l4, l2, l3]
        · rcases takeHM_eq h3 with ⟨_, _, _, _, l5, _⟩
          exact l5
        · intro z hz
          subst hz
          rcases takeTzOpt_eq h4 with ⟨ds, a1, _, a2, a3⟩
          exact ⟨ds, a1, a2, a3⟩

/-- Group shapes of a successful `matchP2`. -/
theorem matchP2_eq {cs d t : List Char} {tz : Option (List Char)}
    (h : matchP2 cs = some (d, t, tz)) :
    (∀ r', takeDate10 (d ++ r') = some (d, r')) ∧ d.length = 10 ∧
    t.length = 8 ∧ (∀ r', takeHMS (t ++ r') = some (t, r')) ∧
    (∀ z, tz = some z → ∃ ds, z = '+' :: ds ∧ ds.length = 4 ∧ ds.all isDigitChar = true) := by
  unfold matchP2 at h
  simp only [bind, Option.bind] at h
  rcases h1 : takeDate10 cs with _ | ⟨d0, r1⟩ <;> rw [h1] at h <;> dsimp only at h
  · exact Option.noConfusion h
  · rcases h2 : takeLit 'T' r1 with _ | r2 <;> rw [h2] at h <;> dsimp only at h
    · exact Option.noConfusion h
    · rcases h3 : takeHMS r2 with _ | ⟨t0, r3⟩ <;> rw [h3] at h <;> dsimp only at h
      · exact Option.noConfusion h
      · rcases h4 : takeTzOpt r3 with ⟨tz0, r4⟩
        rw [h4] at h
        dsimp only at h
        simp only [Option.some_inj, Prod.mk.injEq] at h
        rcases h with ⟨rfl, rfl, rfl⟩
        refine ⟨takeDate10_again h1, ?_, ?_, takeHMS_again h3, ?_⟩
        · rcases takeDate10_eq h1 with ⟨y, mo, dd, hdec, _, l4, l2, l3, _, _, _⟩
          rw [hdec]
          simp [l4, l2, l3]
        · rcases takeHMS_eq h3 with ⟨_, _, _, _, l8, _⟩
          exact l8
        · intro z hz
          subst hz
          rcases takeTzOpt_eq h4 with ⟨ds, a1, _, a2, a3⟩
          exact ⟨ds, a1, a2, a3⟩

/-- Group shape of a successful `matchP3`. -/
theorem matchP3_eq {cs d : List Char} (h : matchP3 cs = some d) :
    (∀ r', takeDate10 (d ++ r') = some (d, r')) ∧ d.length = 10 := by
  unfold matchP3 at h
  rcases h1 : takeDate10 cs with _ | ⟨d0, r1⟩ <;> rw [h1] at h
  · exact Option.noConfusion h
  · simp only [Option.map_some', Option.some_inj] at h
    subst h
    constructor
    · exact takeDate10_again h1
    · rcases takeDate10_eq h1 with ⟨y, mo, dd, hdec, _, l4, l2, l3, _, _, _⟩
      rw [hdec]
      simp [l4, l2, l3]

theorem assemble_p1 {d t : List Char} (tz : Option (List Char)) (hl : t.length = 5) :
    assembleDate d (some t) tz =
      d ++ 'T' :: ((t ++ [':', '0', '0']) ++ tz.getD ("+0800".toList)) := by
  unfold assembleDate
  simp [hl]

theorem assemble_p2 {d t : List Char} (tz : Option (List Char)) (hl : t.length = 8) :
    assembleDate d (some t) tz = d ++ 'T' :: (t ++ tz.getD ("+0800".toList)) := by
  unfold assembleDate
  simp [hl]

theorem assemble_p3 (d : List Char) :
    assembleDate d none none = d ++ 'T' :: ("20:00:00".toList ++ "+0800".toList) := by
  rfl

/-- On a canonical timestamp, pattern 1 fails: the character after the date
group is `T`, not whitespace. -/
theorem matchP1_canon_none {d rest : List Char}
    (hdate : ∀ r', takeDate10 (d ++ r') = some (d, r')) :
    matchP1 (d ++ 'T' :: rest) = none := by
  unfold matchP1
  simp only [bind, Option.bind]
  rw [hdate ('T' :: rest)]
  dsimp only
  rw [takeSpaces1_nonspace rest (by decide)]

/-- On a canonical timestamp, pattern 2 recovers the three groups. -/
theorem matchP2_canon {d t8 ds : List Char}
    (hdate : ∀ r', takeDate10 (d ++ r') = some (d, r'))
    (hhms : ∀ r', takeHMS (t8 ++ r') = some (t8, r'))
    (l : ds.length = 4) (a : ds.all isDigitChar = true) :
    matchP2 (d ++ 'T' :: (t8 ++ ('+' :: ds))) = some (d, t8, some ('+' :: ds)) := by
  unfold matchP2
  simp only [bind, Option.bind]
  rw [hdate ('T' :: (t8 ++ ('+' :: ds)))]
  dsimp only
  rw [takeLit_self]
  dsimp only
  rw [hhms ('+' :: ds)]
  dsimp only
  have := takeTzOpt_build ([] : List Char) l a
  rw [List.append_nil] at this
  rw [this]

/-- A string of the canonical component shapes passes `isCanonicalTs`. -/
theorem isCanonicalTs_canon {d t8 ds : List Char}
    (hdate : ∀ r', takeDate10 (d ++ r') = some (d, r'))
    (hhms : ∀ r', takeHMS (t8 ++ r') = some (t8, r'))
    (l : ds.length = 4) (a : ds.all isDigitChar = true) :
    isCanonicalTs ⟨d ++ 'T' :: (t8 ++ ('+' :: ds))⟩ = true := by
  unfold isCanonicalTs
  simp only [bind, Option.bind]
  have htl : (⟨d ++ 'T' :: (t8 ++ ('+' :: ds))⟩ : String).toList = d ++ 'T' :: (t8 ++ ('+' :: ds)) :=
    rfl
  rw [htl, hdate ('T' :: (t8 ++ ('+' :: ds)))]
  dsimp only
  rw [takeLit_self]
  dsimp only
  rw [hhms ('+' :: ds)]
  dsimp only
  rw [takeLit_self]
  dsimp only
  have := takeDigits_append ([] : List Char) l a
  rw [List.append_nil] at this
  rw [this]
  dsimp only
  simp

/-- `convert_date_format` maps a canonical timestamp to itself (pattern 2
reproduces it), and such a timestamp passes the shape check. -/
theorem convert_canonical {d t8 ds : List Char}
    (hdate : ∀ r', takeDate10 (d ++ r') = some (d, r'))
    (hhms : ∀ r', takeHMS (t8 ++ r') = some (t8, r')) (ht8 : t8.length = 8)
    (l : ds.length = 4) (a : ds.all isDigitChar = true) :
    convert_date_format ⟨d ++ 'T' :: (t8 ++ ('+' :: ds))⟩ =
      some ⟨d ++ 'T' :: (t8 ++ ('+' :: ds))⟩ ∧
    isCanonicalTs ⟨d ++ 'T' :: (t8 ++ ('+' :: ds))⟩ = true := by
  have hnil : d ++ 'T' :: (t8 ++ ('+' :: ds)) ≠ [] := by
    intro h
    have := congrArg List.length h
    simp at this
  have hie : (⟨d ++ 'T' :: (t8 ++ ('+' :: ds))⟩ : String).isEmpty = false :=
    isEmpty_false_of_ne (str_mk_ne_empty hnil)
  refine ⟨?_, isCanonicalTs_canon hdate hhms l a⟩
  unfold convert_date_format
  rw [hie]
  simp only [Bool.false_eq_true, if_false]
  have htl : (⟨d ++ 'T' :: (t8 ++ ('+' :: ds))⟩ : String).toList = d ++ 'T' :: (t8 ++ ('+' :: ds)) :=
    rfl
  rw [htl, matchP1_canon_none hdate, matchP2_canon hdate hhms l a]
  dsimp only
  rw [assemble_p2 (some ('+' :: ds)) ht8]
  simp

/-- Facts about the default timezone `+0800`. -/
theorem tz_default_shape :
    "+0800".toList = '+' :: ['0', '8', '0', '0'] ∧
    (['0', '8', '0', '0'] : List Char).length = 4 ∧
    (['0', '8', '0', '0'] : List Char).all isDigitChar = true := by
  refine ⟨rfl, rfl, by decide⟩

/-- The timezone actually used by `assembleDate` always has shape
`+\d{4}`. -/
theorem tzparts {tz : Option (List Char)}
    (htz : ∀ z, tz = some z → ∃ ds, z = '+' :: ds ∧ ds.length = 4 ∧ ds.all isDigitChar = true) :
    ∃ ds, tz.getD ("+0800".toList) = '+' :: ds ∧ ds.length = 4 ∧ ds.all isDigitChar = true := by
  rcases tz with _ | z
  · exact ⟨['0', '8', '0', '0'], tz_default_shape⟩
  · rcases htz z rfl with ⟨ds, h1, h2, h3⟩
    exact ⟨ds, by simp [h1], h2, h3⟩

/-- The `HH:MM:SS` group built by appending `:00` to a `HH:MM` group. -/
theorem hms_of_hm {t : List Char} (hhm : ∀ r', takeHM (t ++ r') = some (t, r'))
    (hl : t.length = 5) :
    (∀ r', takeHMS ((t ++ [':', '0', '0']) ++ r') = some (t ++ [':', '0', '0'], r')) ∧
    (t ++ [':', '0', '0']).length = 8 := by
  constructor
  · intro r'
    have e : t ++ [':', '0', '0'] = t ++ ':' :: ['0', '0'] := rfl
    rw [e]
    exact takeHMS_build r' hhm rfl (by decide)
  · simp [hl]

/-- The constant `20:00:00` default time group. -/
theorem hms_default :
    (∀ r', takeHMS ("20:00:00".toList ++ r') = some ("20:00:00".toList, r')) ∧
    ("20:00:00".toList).length = 8 := by
  constructor
  · intro r'
    have hhm : ∀ r', takeHM ("20:00".toList ++ r') = some ("20:00".toList, r') := by
      intro r'
      have e : "20:00".toList = ['2', '0'] ++ ':' :: ['0', '0'] := rfl
      rw [e]
      exact takeHM_build r' rfl rfl (by decide) (by decide)
    have e : "20:00:00".toList = "20:00".toList ++ ':' :: ['0', '0'] := rfl
    rw [e]
    exact takeHMS_build r' hhm rfl (by decide)
  · rfl

/-- `convert_date_format` is idempotent on its own successful output. -/
theorem convert_idem {s o : String} (h : convert_date_format s = some o) :
    convert_date_format o = some o := by
  rcases hie : s.isEmpty with _ | _
  · unfold convert_date_format at h
    rw [hie] at h
    simp only [Bool.false_eq_true, if_false] at h
    rcases h1 : matchP1 s.toList with _ | ⟨d, t, tz⟩ <;> rw [h1] at h
    · rcases h2 : matchP2 s.toList with _ | ⟨d, t, tz⟩ <;> rw [h2] at h
      · rcases h3 : matchP3 s.toList with _ | d <;> rw [h3] at h
        · -- fall-through: the input is returned unchanged
          simp only [Option.some_inj] at h
          subst h
          unfold convert_date_format
          rw [hie]
          simp only [Bool.false_eq_true, if_false]
          rw [h1, h2, h3]
        · -- pattern 3: date only, defaults for time and timezone
          simp only [Option.some_inj] at h
          rcases matchP3_eq h3 with ⟨hdate, hd10⟩
          rcases tz_default_shape with ⟨hz, l, a⟩
          have e : assembleDate d none none =
              d ++ 'T' :: ("20:00:00".toList ++ ('+' :: ['0', '8', '0', '0'])) := by
            rw [assemble_p3, hz]
          rw [e] at h
          subst h
          exact (convert_canonical hdate hms_default.1 hms_default.2 l a).1
      · -- pattern 2: full timestamp
        simp only [Option.some_inj] at h
        rcases matchP2_eq h2 with ⟨hdate, hd10, ht8, hhms, htz⟩
        rcases tzparts htz with ⟨ds, hz, l, a⟩
        rw [assemble_p2 tz ht8, hz] at h
        subst h
        exact (convert_canonical hdate hhms ht8 l a).1
    · -- pattern 1: date plus HH:MM
      simp only [Option.some_inj] at h
      rcases matchP1_eq h1 with ⟨hdate, hd10, ht5, hhm, htz⟩
      rcases tzparts htz with ⟨ds, hz, l, a⟩
      rcases hms_of_hm hhm ht5 with ⟨hhms, ht8⟩
      rw [assemble_p1 tz ht5, hz] at h
      subst h
      exact (convert_canonical hdate hhms ht8 l a).1
  · unfold convert_date_format at h
    rw [hie] at h
    exact Option.noConfusion h

/-! ## C7: convert_date_format canonicalization -/

/-- C7.  `convert_date_format` maps `"2024-11-03 10:00"` to
`"2024-11-03T10:00:00+0800"`; in general, for inputs matching the accepted
date shapes (taken in the source's order), a missing `HH:MM` time defaults
to `20:00:00`, a missing timezone defaults to `+0800`, a 5-character time
group gets seconds `:00` appended, and every output for a matched input
passes the canonical `yyyy-MM-ddTHH:mm:ss+ZZZZ` shape check. -/
theorem convert_date_format_spec :
    convert_date_format "2024-11-03 10:00" = some "2024-11-03T10:00:00+0800" ∧
    (∀ (s : String) (d t : List Char), s ≠ "" → matchP1 s.toList = some (d, t, none) →
      convert_date_format s = some ⟨d ++ 'T' :: ((t ++ [':', '0', '0']) ++ "+0800".toList)⟩) ∧
    (∀ (s : String) (d t : List Char), s ≠ "" →
      matchP1 s.toList = none → matchP2 s.toList = some (d, t, none) →
      convert_date_format s = some ⟨d ++ 'T' :: (t ++ "+0800".toList)⟩) ∧
    (∀ (s : String) (d : List Char), s ≠ "" →
      matchP1 s.toList = none → matchP2 s.toList = none → matchP3 s.toList = some d →
      convert_date_format s = some ⟨d ++ "T20:00:00+0800".toList⟩) ∧
    (∀ (s o : String), s ≠ "" →
      ((matchP1 s.toList).isSome ∨ (matchP2 s.toList).isSome ∨ (matchP3 s.toList).isSome) →
      convert_date_format s = some o → isCanonicalTs o = true) := by
  refine ⟨by decide, ?_, ?_, ?_, ?_⟩
  · intro s d t hs h1
    have hie := isEmpty_false_of_ne hs
    rcases matchP1_eq h1 with ⟨_, _, ht5, _, _⟩
    unfold convert_date_format
    rw [hie]
    simp only [Bool.false_eq_true, if_false]
    rw [h1]
    dsimp only
    rw [assemble_p1 none ht5]
    simp
  · intro s d t hs h1 h2
    have hie := isEmpty_false_of_ne hs
    rcases matchP2_eq h2 with ⟨_, _, ht8, _, _⟩
    unfold convert_date_format
    rw [hie]
    simp only [Bool.false_eq_true, if_false]
    rw [h1, h2]
    dsimp only
    rw [assemble_p2 none ht8]
    simp
  · intro s d hs h1 h2 h3
    have hie := isEmpty_false_of_ne hs
    unfold convert_date_format
    rw [hie]
    simp only [Bool.false_eq_true, if_false]
    rw [h1, h2, h3]
    dsimp only
    rw [assemble_p3]
    have e : 'T' :: ("20:00:00".toList ++ "+0800".toList) = "T20:00:00+0800".toList := by decide
    rw [e]
  · intro s o hs hmatch hconv
    have hie := isEmpty_false_of_ne hs
    unfold convert_date_format at hconv
    rw [hie] at hconv
    simp only [Bool.false_eq_true, if_false] at hconv
    rcases h1 : matchP1 s.toList with _ | ⟨d, t, tz⟩ <;> rw [h1] at hconv
    · rcases h2 : matchP2 s.toList with _ | ⟨d, t, tz⟩ <;> rw [h2] at hconv
      · rcases h3 : matchP3 s.toList with _ | d <;> rw [h3] at hconv
        · rcases hmatch with hm | hm | hm
          · rw [h1] at hm
            simp at hm
          · rw [h2] at hm
            simp at hm
          · rw [h3] at hm
            simp at hm
        · simp only [Option.some_inj] at hconv
          rcases matchP3_eq h3 with ⟨hdate, _⟩
          rcases tz_default_shape with ⟨hz, l, a⟩
          have e : assembleDate d none none =
              d ++ 'T' :: ("20:00:00".toList ++ ('+' :: ['0', '8', '0', '0'])) := by
            rw [assemble_p3, hz]
          rw [e] at hconv
          subst hconv
          exact (convert_canonical hdate hms_default.1 hms_default.2 l a).2
      · simp only [Option.some_inj] at hconv
        rcases matchP2_eq h2 with ⟨hdate, _, ht8, hhms, htz⟩
        rcases tzparts htz with ⟨ds, hz, l, a⟩
        rw [assemble_p2 tz ht8, hz] at hconv
        subst hconv
        exact (convert_canonical hdate hhms ht8 l a).2
    · simp only [Option.some_inj] at hconv
      rcases matchP1_eq h1 with ⟨hdate, _, ht5, hhm, htz⟩
      rcases tzparts htz with ⟨ds, hz, l, a⟩
      rcases hms_of_hm hhm ht5 with ⟨hhms, ht8⟩
      rw [assemble_p1 tz ht5, hz] at hconv
      subst hconv
      exact (convert_canonical hdate hhms ht8 l a).2

/-- C7 witness: the pattern-3 default case at `"2024-11-05"` and the
canonical-shape conjunct at `"2024-11-03 10:00"`. -/
theorem convert_date_format_spec_witness :
    convert_date_format "2024-11-05" = some "2024-11-05T20:00:00+0800" ∧
    isCanonicalTs "2024-11-03T10:00:00+0800" = true := by
  constructor
  · have h := convert_date_format_spec.2.2.2.1 "2024-11-05" ("2024-11-05".toList)
      (by decide) (by decide) (by decide) (by decide)
    exact h.trans (by decide)
  · exact convert_date_format_spec.2.2.2.2 "2024-11-03 10:00" "2024-11-03T10:00:00+0800"
      (by decide) (Or.inl (by decide)) (by decide)

/-! ## C4: parse_frontmatter contract and caller skip -/

/-- C4.  `parse_frontmatter` (for any abstract YAML loader): when the
delimiter pair is absent it returns `(none, original)`; when the header
raises on loading it returns `(none, original)`; when the header loads it
returns the loaded value with the body.  And in `process_markdown_files`
the caller skips documents with an unparseable header: they come out of
the pass exactly as they went in. -/
theorem parse_frontmatter_contract :
    (∀ (α : Type) (yamlOk : String → Bool) (yamlVal : String → Option α) (content : String),
      (fmSplit content.toList = none →
        parse_frontmatter yamlOk yamlVal content = (none, content)) ∧
      (∀ hd bd, fmSplit content.toList = some (hd, bd) → yamlOk ⟨hd⟩ = false →
        parse_frontmatter yamlOk yamlVal content = (none, content)) ∧
      (∀ hd bd, fmSplit content.toList = some (hd, bd) → yamlOk ⟨hd⟩ = true →
        parse_frontmatter yamlOk yamlVal content = (yamlVal ⟨hd⟩, ⟨bd⟩))) ∧
    (∀ l : List Doc,
      (process_markdown_files l).filter (fun d => d.fm.isNone) =
        l.filter (fun d => d.fm.isNone)) := by
  constructor
  · intro α yamlOk yamlVal content
    refine ⟨?_, ?_, ?_⟩
    · intro h
      unfold parse_frontmatter
      rw [h]
    · intro hd bd h hok
      unfold parse_frontmatter
      rw [h]
      dsimp only
      rw [hok]
      simp
    · intro hd bd h hok
      unfold parse_frontmatter
      rw [h]
      dsimp only
      rw [hok]
      simp
  · intro l
    unfold process_markdown_files
    rw [List.filter_append]
    have h1 : (List.map processOne (assign_weights_by_date (l.filterMap mkInfo) l)).filter
        (fun d => d.fm.isNone) = [] := by
      rw [List.filter_eq_nil_iff]
      intro d hd
      rcases List.mem_map.mp hd with ⟨i, _, rfl⟩
      unfold processOne
      dsimp only
      split <;> simp
    rw [h1, List.append_nil, List.filter_filter]
    simp

/-- C4 witness: the three contract branches at concrete inputs (an
always-succeeding loader, an always-raising loader, and a document with no
closing delimiter). -/
theorem parse_frontmatter_contract_witness :
    parse_frontmatter (fun _ => true) (fun _ => some 7) "no frontmatter here" =
      (none, "no frontmatter here") ∧
    parse_frontmatter (fun _ => false) (fun _ => (some 7 : Option Nat)) "---\nk: v\n---\nbody" =
      (none, "---\nk: v\n---\nbody") ∧
    parse_frontmatter (fun _ => true) (fun _ => some 7) "---\nk: v\n---\nbody" =
      (some 7, "body") := by
  refine ⟨?_, ?_, ?_⟩
  · exact ((parse_frontmatter_contract.1 Nat (fun _ => true) (fun _ => some 7)
      "no frontmatter here").1 (by decide))
  · exact ((parse_frontmatter_contract.1 Nat (fun _ => false) (fun _ => some 7)
      "---\nk: v\n---\nbody").2.1 ("k: v".toList) ("body".toList) (by decide) rfl)
  · exact ((parse_frontmatter_contract.1 Nat (fun _ => true) (fun _ => some 7)
      "---\nk: v\n---\nbody").2.2 ("k: v".toList) ("body".toList) (by decide) rfl)

/-! ## Organizer fold lemmas -/

theorem analyze_fold_plan_mem (u : Bool) (c : List (String × String)) (t : List TargetEntry) :
    ∀ (files : List SrcFile) (acc : List (String × SrcFile) × List (String × String))
      (e : String × SrcFile),
      e ∈ (files.foldl (analyzeStep u c t) acc).1 →
      e ∈ acc.1 ∨ (e.2 ∈ files ∧ is_gesp_file e.2.filename = true ∧
        ∃ fm sub, e.2.fm = some fm ∧ determine_subdirectory fm e.2.filename = some sub ∧
          e.1 = sub ∧ check_file_exists_in_target u c t e.2.filename = none) := by
  intro files
  induction files with
  | nil =>
    intro acc e h
    exact Or.inl h
  | cons f rest ih =>
    intro acc e h
    rw [List.foldl_cons] at h
    rcases ih _ e h with hacc | ⟨hmem, hrest⟩
    · unfold analyzeStep at hacc
      by_cases hg : is_gesp_file f.filename
      · rw [if_pos hg] at hacc
        rcases hfm : f.fm with _ | fm <;> rw [hfm] at hacc <;> dsimp only at hacc
        · exact Or.inl hacc
        · rcases hdet : determine_subdirectory fm f.filename with _ | sub <;>
            rw [hdet] at hacc <;> dsimp only at hacc
          · exact Or.inl hacc
          · rcases hchk : check_file_exists_in_target u c t f.filename with _ | p <;>
              rw [hchk] at hacc <;> dsimp only at hacc
            · rcases List.mem_append.mp hacc with h1 | h2
              · exact Or.inl h1
              · rcases List.mem_singleton.mp h2 with rfl
                exact Or.inr ⟨List.mem_cons_self _ _, hg, fm, sub, hfm, hdet, rfl, hchk⟩
            · exact Or.inl hacc
      · rw [if_neg hg] at hacc
        exact Or.inl hacc
    · exact Or.inr ⟨List.mem_cons_of_mem _ hmem, hrest⟩

theorem analyze_fold_existed_mem (u : Bool) (c : List (String × String)) (t : List TargetEntry) :
    ∀ (files : List SrcFile) (acc : List (String × SrcFile) × List (String × String))
      (e : String × String),
      e ∈ (files.foldl (analyzeStep u c t) acc).2 →
      e ∈ acc.2 ∨ ∃ f', f' ∈ files ∧ is_gesp_file f'.filename = true ∧
        ∃ fm sub, f'.fm = some fm ∧ determine_subdirectory fm f'.filename = some sub ∧
          check_file_exists_in_target u c t f'.filename = some e.1 ∧ e.2 = f'.filename := by
  intro files
  induction files with
  | nil =>
    intro acc e h
    exact Or.inl h
  | cons f rest ih =>
    intro acc e h
    rw [List.foldl_cons] at h
    rcases ih _ e h with hacc | ⟨f', hmem, hrest⟩
    · unfold analyzeStep at hacc
      by_cases hg : is_gesp_file f.filename
      · rw [if_pos hg] at hacc
        rcases hfm : f.fm with _ | fm <;> rw [hfm] at hacc <;> dsimp only at hacc
        · exact Or.inl hacc
        · rcases hdet : determine_subdirectory fm f.filename with _ | sub <;>
            rw [hdet] at hacc <;> dsimp only at hacc
          · exact Or.inl hacc
          · rcases hchk : check_file_exists_in_target u c t f.filename with _ | p <;>
              rw [hchk] at hacc <;> dsimp only at hacc
            · exact Or.inl hacc
            · rcases List.mem_append.mp hacc with h1 | h2
              · exact Or.inl h1
              · rcases List.mem_singleton.mp h2 with rfl
                exact Or.inr ⟨f, List.mem_cons_self _ _, hg, fm, sub, hfm, hdet, hchk, rfl⟩
      · rw [if_neg hg] at hacc
        exact Or.inl hacc
    · exact Or.inr ⟨f', List.mem_cons_of_mem _ hmem, hrest⟩

theorem analyze_fold_existed_mono (u : Bool) (c : List (String × String)) (t : List TargetEntry) :
    ∀ (files : List SrcFile) (acc : List (String × SrcFile) × List (String × String))
      (e : String × String),
      e ∈ acc.2 → e ∈ (files.foldl (analyzeStep u c t) acc).2 := by
  intro files
  induction files with
  | nil =>
    intro acc e h
    exact h
  | cons f rest ih =>
    intro acc e h
    rw [List.foldl_cons]
    refine ih _ e ?_
    unfold analyzeStep
    by_cases hg : is_gesp_file f.filename
    · rw [if_pos hg]
      rcases hfm : f.fm with _ | fm <;> dsimp only
      · exact h
      · rcases hdet : determine_subdirectory fm f.filename with _ | sub <;> dsimp only
        · exact h
        · rcases hchk : check_file_exists_in_target u c t f.filename with _ | p <;> dsimp only
          · exact h
          · exact List.mem_append_left _ h
    · rw [if_neg hg]
      exact h

theorem analyze_fold_existed_of (u : Bool) (c : List (String × String)) (t : List TargetEntry) :
    ∀ (files : List SrcFile) (acc : List (String × SrcFile) × List (String × String))
      (f : SrcFile) (fm : GFm) (sub p : String),
      f ∈ files → is_gesp_file f.filename = true → f.fm = some fm →
      determine_subdirectory fm f.filename = some sub →
      check_file_exists_in_target u c t f.filename = some p →
      (p, f.filename) ∈ (files.foldl (analyzeStep u c t) acc).2 := by
  intro files
  induction files with
  | nil =>
    intro acc f fm sub p hmem
    exact absurd hmem (List.not_mem_nil _)
  | cons g rest ih =>
    intro acc f fm sub p hmem hg hfm hdet hchk
    rw [List.foldl_cons]
    rcases List.mem_cons.mp hmem with rfl | hmem'
    · refine analyze_fold_existed_mono u c t rest _ _ ?_
      unfold analyzeStep
      rw [if_pos hg, hfm]
      dsimp only
      rw [hdet]
      dsimp only
      rw [hchk]
      dsimp only
      exact List.mem_append_right _ (List.mem_singleton.mpr rfl)
    · exact ih _ f fm sub p hmem' hg hfm hdet hchk

/-! ## C8: classification rules -/

/-- C8.  `determine_subdirectory` on an accepted pair picks the first
matching rule in the order codereal, practice, syllabus, knowledge,
others; a missing level token yields `none`; and `analyze_files` rejects
every filename failing the GESP pattern outright (no such file is planned
or reported).  The concrete conjunct shows first-match priority: a title
holding both markers goes to codereal even when the filename holds
`syllabus`. -/
theorem determine_subdirectory_spec :
    (∀ (fm : GFm) (fn : String) (level : String),
      extract_level_from_categories fm.categories = some level →
      determine_subdirectory fm fn = some (level ++ "/" ++
        (if isSubstr ("真题".toList) fm.title.toList then "codereal"
         else if isSubstr ("练习".toList) fm.title.toList then "practice"
         else if isSubstr ("syllabus".toList) (pyLower fn.toList) then "syllabus"
         else if isSubstr ("knowledge".toList) (pyLower fn.toList) then "knowledge"
         else "others"))) ∧
    (∀ (fm : GFm) (fn : String),
      extract_level_from_categories fm.categories = none →
      determine_subdirectory fm fn = none) ∧
    (∀ (u : Bool) (c : List (String × String)) (t : List TargetEntry)
      (files : List SrcFile) (e : String × SrcFile),
      e ∈ (analyze_files u c t files).1 → is_gesp_file e.2.filename = true) ∧
    (∀ (u : Bool) (c : List (String × String)) (t : List TargetEntry)
      (files : List SrcFile) (e : String × String),
      e ∈ (analyze_files u c t files).2 →
      ∃ f', f' ∈ files ∧ is_gesp_file f'.filename = true ∧ e.2 = f'.filename) ∧
    determine_subdirectory ⟨"GESP真题练习", ["三级"]⟩ "2024-01-01-gesp-syllabus.md" =
      some "3/codereal" := by
  refine ⟨?_, ?_, ?_, ?_, by decide⟩
  · intro fm fn level hlevel
    unfold determine_subdirectory
    rw [hlevel]
  · intro fm fn hlevel
    unfold determine_subdirectory
    rw [hlevel]
  · intro u c t files e h
    rcases analyze_fold_plan_mem u c t files ([], []) e h with habs | ⟨_, hg, _⟩
    · exact absurd habs (List.not_mem_nil _)
    · exact hg
  · intro u c t files e h
    rcases analyze_fold_existed_mem u c t files ([], []) e h with habs | ⟨f', hm, hg, _, _, _, _, _, hfn⟩
    · exact absurd habs (List.not_mem_nil _)
    · exact ⟨f', hm, hg, hfn⟩

/-- C8 witness: the cascade equation applied at a concrete frontmatter
with level `五级` and a plain filename, landing in `5/others`. -/
theorem determine_subdirectory_spec_witness :
    determine_subdirectory ⟨"plain", ["GESP五级"]⟩ "2024-01-01-gesp-a.md" = some "5/others" := by
  have h := determine_subdirectory_spec.1 ⟨"plain", ["GESP五级"]⟩ "2024-01-01-gesp-a.md" "5"
    (by decide)
  exact h.trans (by decide)

/-! ## C5: duplicate detection by filename -/

theorem upsert_mem_iff {t : List TargetEntry} {e x : TargetEntry}
    (hne : e.filename ≠ x.filename) : x ∈ upsert t e ↔ x ∈ t := by
  unfold upsert
  by_cases hkey : t.any fun y => y.dir = e.dir && y.filename = e.filename
  · rw [if_pos hkey]
    constructor
    · intro hx
      rcases List.mem_map.mp hx with ⟨y, hy, hfy⟩
      by_cases hcond : y.dir = e.dir ∧ y.filename = e.filename
      · rw [if_pos hcond] at hfy
        exact absurd (congrArg TargetEntry.filename hfy) hne
      · rw [if_neg hcond] at hfy
        rw [← hfy]
        exact hy
    · intro hx
      refine List.mem_map.mpr ⟨x, hx, ?_⟩
      rw [if_neg]
      intro hcond
      exact hne (hcond.2.symm)
  · rw [if_neg hkey]
    constructor
    · intro hx
      rcases List.mem_append.mp hx with h1 | h2
      · exact h1
      · rcases List.mem_singleton.mp h2 with rfl
        exact absurd rfl hne
    · intro hx
      exact List.mem_append_left _ hx

theorem execute_preserve :
    ∀ (plan : List (String × SrcFile)) (tree : List TargetEntry) (x : TargetEntry),
      (∀ q ∈ plan, q.2.filename ≠ x.filename) →
      (x ∈ execute_copy_plan tree plan ↔ x ∈ tree) := by
  intro plan
  induction plan with
  | nil =>
    intro tree x _
    exact Iff.rfl
  | cons q rest ih =>
    intro tree x hq
    unfold execute_copy_plan
    rw [List.foldl_cons]
    have h1 : x ∈ execute_copy_plan (upsert tree ⟨q.1, q.2.filename, q.2.content⟩) rest ↔
        x ∈ upsert tree ⟨q.1, q.2.filename, q.2.content⟩ :=
      ih _ x fun p hp => hq p (List.mem_cons_of_mem _ hp)
    exact (h1.trans (upsert_mem_iff (hq q (List.mem_cons_self _ _))))

/-- C5 counterexample.  The claim says a source file whose filename is
already present anywhere under the destination tree is never copied and
the existing destination file is never overwritten.  With the cache in use
(the organizer's default) and the cache stale — here empty while the tree
holds the file — the file is planned and copied, and the copy replaces the
existing entry at the same path: its content changes from `OLD` to `NEW`. -/
theorem organizer_stale_cache_cex :
    (([⟨"1/others", "2024-01-01-gesp-f.md", "OLD"⟩] : List TargetEntry).any
      fun te => te.filename = "2024-01-01-gesp-f.md") = true ∧
    organize_files true [] [⟨"1/others", "2024-01-01-gesp-f.md", "OLD"⟩]
      [⟨"2024-01-01-gesp-f.md", some ⟨"t", ["一级"]⟩, "NEW"⟩] =
      [⟨"1/others", "2024-01-01-gesp-f.md", "NEW"⟩] := by
  exact ⟨by decide, by decide⟩

/-- C5 amended: provided the existence check agrees with the destination
tree on filename presence (which holds when the cache is disabled, and
when the cache is fresh), a source file whose filename is already present
anywhere under the destination tree is never planned for copying, every
destination entry with that filename survives `organize_files` unchanged
(and no new entry with that filename appears) whatever the contents
involved, and a classifiable such file is reported as a duplicate. -/
theorem organizer_skips_existing :
    ∀ (u : Bool) (c : List (String × String)) (t : List TargetEntry)
      (files : List SrcFile) (F : String),
      (∀ fn, (t.any fun te => te.filename = fn) = true →
        (check_file_exists_in_target u c t fn).isSome = true) →
      (t.any fun te => te.filename = F) = true →
      (∀ q, q ∈ (analyze_files u c t files).1 → q.2.filename ≠ F) ∧
      (∀ x : TargetEntry, x.filename = F → (x ∈ organize_files u c t files ↔ x ∈ t)) ∧
      (∀ f fm sub, f ∈ files → f.filename = F → f.fm = some fm →
        is_gesp_file F = true → determine_subdirectory fm F = some sub →
        ∃ p, (p, F) ∈ (analyze_files u c t files).2) := by
  intro u c t files F hcons hpres
  have hplan : ∀ q, q ∈ (analyze_files u c t files).1 → q.2.filename ≠ F := by
    intro q hq hqF
    rcases analyze_fold_plan_mem u c t files ([], []) q hq with habs | ⟨_, _, _, _, _, _, _, hchk⟩
    · exact absurd habs (List.not_mem_nil _)
    · rw [hqF] at hchk
      have := hcons F hpres
      rw [hchk] at this
      exact Bool.noConfusion this
  refine ⟨hplan, ?_, ?_⟩
  · intro x hx
    unfold organize_files
    refine execute_preserve _ t x ?_
    intro q hq
    rw [hx]
    exact hplan q hq
  · intro f fm sub hmem hF hfm hgesp hdet
    have hsome := hcons F hpres
    rcases hchk : check_file_exists_in_target u c t F with _ | p
    · rw [hchk] at hsome
      exact Bool.noConfusion hsome
    · refine ⟨p, ?_⟩
      rw [← hF]
      refine analyze_fold_existed_of u c t files ([], []) f fm sub p hmem ?_ hfm ?_ ?_
      · rw [hF]
        exact hgesp
      · rw [hF]
        exact hdet
      · rw [hF]
        exact hchk

/-- With the cache disabled, the existence check is the filesystem truth:
it finds every filename present in the tree. -/
theorem check_nocache_consistent (c : List (String × String)) (t : List TargetEntry) :
    ∀ fn, (t.any fun te => te.filename = fn) = true →
      (check_file_exists_in_target false c t fn).isSome = true := by
  intro fn h
  unfold check_file_exists_in_target
  simp only [Bool.false_eq_true, if_false]
  rcases List.any_eq_true.mp h with ⟨te, hmem, hte⟩
  have hs : (List.find? (fun e => decide (e.filename = fn)) t).isSome :=
    List.find?_isSome.mpr ⟨te, hmem, hte⟩
  rcases Option.isSome_iff_exists.mp hs with ⟨v, hv⟩
  rw [hv]
  rfl

/-- C5 witness: with the cache disabled, a source file named like an
existing destination file is not planned, and the old entry survives with
different contents on both sides. -/
theorem organizer_skips_existing_witness :
    (∀ q, q ∈ (analyze_files false [] [⟨"2/practice", "2024-01-01-gesp-g.md", "OLD"⟩]
      [⟨"2024-01-01-gesp-g.md", some ⟨"练习", ["二级"]⟩, "NEW"⟩]).1 →
      q.2.filename ≠ "2024-01-01-gesp-g.md") ∧
    ((⟨"2/practice", "2024-01-01-gesp-g.md", "OLD"⟩ : TargetEntry) ∈
      organize_files false [] [⟨"2/practice", "2024-01-01-gesp-g.md", "OLD"⟩]
        [⟨"2024-01-01-gesp-g.md", some ⟨"练习", ["二级"]⟩, "NEW"⟩] ↔
      (⟨"2/practice", "2024-01-01-gesp-g.md", "OLD"⟩ : TargetEntry) ∈
        ([⟨"2/practice", "2024-01-01-gesp-g.md", "OLD"⟩] : List TargetEntry)) := by
  have h := organizer_skips_existing false [] [⟨"2/practice", "2024-01-01-gesp-g.md", "OLD"⟩]
    [⟨"2024-01-01-gesp-g.md", some ⟨"练习", ["二级"]⟩, "NEW"⟩] "2024-01-01-gesp-g.md"
    (check_nocache_consistent [] _) (by decide)
  exact ⟨h.1, h.2.1 _ rfl⟩

/-! ## Line splitting and stripping lemmas (for C6) -/

theorem splitNl_ne_nil : ∀ cs : List Char, splitNl cs ≠ [] := by
  intro cs
  induction cs with
  | nil => simp [splitNl]
  | cons c t ih =>
    simp only [splitNl]
    by_cases hc : c = '\n'
    · rw [if_pos hc]
      simp
    · rw [if_neg hc]
      rcases h : splitNl t with _ | ⟨l, ls⟩
      · simp
      · simp

theorem splitNl_no_nl : ∀ (cs : List Char) (l : List Char), l ∈ splitNl cs → '\n' ∈ l → False := by
  intro cs
  induction cs with
  | nil =>
    intro l hl hmem
    simp [splitNl] at hl
    subst hl
    exact List.not_mem_nil _ hmem
  | cons c t ih =>
    intro l hl hmem
    simp only [splitNl] at hl
    by_cases hc : c = '\n'
    · rw [if_pos hc] at hl
      rcases List.mem_cons.mp hl with rfl | h2
      · exact List.not_mem_nil _ hmem
      · exact ih l h2 hmem
    · rw [if_neg hc] at hl
      rcases hsp : splitNl t with _ | ⟨l0, ls⟩ <;> rw [hsp] at hl
      · rcases List.mem_singleton.mp hl with rfl
        rcases List.mem_singleton.mp hmem with h
        exact hc h.symm
      · rcases List.mem_cons.mp hl with rfl | h2
        · rcases List.mem_cons.mp hmem with h | h
          · exact hc h.symm
          · exact ih l0 (by rw [hsp]; exact List.mem_cons_self _ _) h
        · exact ih l (by rw [hsp]; exact List.mem_cons_of_mem _ h2) hmem

theorem splitNl_single : ∀ l : List Char, ('\n' ∈ l → False) → splitNl l = [l] := by
  intro l
  induction l with
  | nil => intro _; rfl
  | cons c t ih =>
    intro hnl
    have hc : ¬ c = '\n' := fun h => hnl (by rw [h]; exact List.mem_cons_self _ _)
    simp only [splitNl, if_neg hc]
    rw [ih fun h => hnl (List.mem_cons_of_mem _ h)]

theorem splitNl_append_nl : ∀ (l cs : List Char), ('\n' ∈ l → False) →
    splitNl (l ++ '\n' :: cs) = l :: splitNl cs := by
  intro l
  induction l with
  | nil =>
    intro cs _
    simp [splitNl]
  | cons c t ih =>
    intro cs hnl
    have hc : ¬ c = '\n' := fun h => hnl (by rw [h]; exact List.mem_cons_self _ _)
    have e := ih cs fun h => hnl (List.mem_cons_of_mem _ h)
    simp only [List.cons_append, splitNl, List.append_eq, if_neg hc, e]

theorem splitNl_joinNl : ∀ ls : List (List Char), ls ≠ [] →
    (∀ l ∈ ls, '\n' ∈ l → False) → splitNl (joinNl ls) = ls := by
  intro ls
  induction ls with
  | nil => intro h; exact absurd rfl h
  | cons l rest ih =>
    intro _ hnl
    rcases rest with _ | ⟨l2, rest'⟩
    · exact splitNl_single l (hnl l (List.mem_cons_self _ _))
    · show splitNl (l ++ '\n' :: joinNl (l2 :: rest')) = l :: (l2 :: rest')
      rw [splitNl_append_nl l _ (hnl l (List.mem_cons_self _ _))]
      rw [ih (by simp) fun x hx => hnl x (List.mem_cons_of_mem _ hx)]

theorem dropWhile_head_not {p : Char → Bool} :
    ∀ {l : List Char} {a : Char}, (l.dropWhile p).head? = some a → p a = false := by
  intro l
  induction l with
  | nil =>
    intro a h
    exact Option.noConfusion h
  | cons c t ih =>
    intro a h
    by_cases hc : p c
    · rw [List.dropWhile_cons_of_pos hc] at h
      exact ih h
    · rw [List.dropWhile_cons_of_neg hc] at h
      simp only [List.head?_cons, Option.some_inj] at h
      subst h
      exact Bool.not_eq_true _ |>.mp hc

theorem dropWhile_append_singleton {p : Char → Bool} {a : Char} (ha : p a = false) :
    ∀ xs : List Char, (xs ++ [a]).dropWhile p = xs.dropWhile p ++ [a] := by
  intro xs
  induction xs with
  | nil =>
    rw [List.nil_append, List.dropWhile_nil, List.nil_append]
    exact List.dropWhile_cons_of_neg (by simp [ha])
  | cons c t ih =>
    by_cases hc : p c
    · rw [List.cons_append, List.dropWhile_cons_of_pos hc, List.dropWhile_cons_of_pos hc, ih]
    · rw [List.cons_append, List.dropWhile_cons_of_neg hc, List.dropWhile_cons_of_neg hc,
        List.cons_append]

/-- Trailing-strip of a list headed by a non-space keeps that head. -/
theorem rstrip_cons {a : Char} {u : List Char} (ha : isPySpace a = false) :
    ((a :: u).reverse.dropWhile isPySpace).reverse =
      a :: (u.reverse.dropWhile isPySpace).reverse := by
  rw [List.reverse_cons, dropWhile_append_singleton ha u.reverse, List.reverse_append]
  rfl

theorem pyStrip_cons_head {a : Char} {u : List Char} (ha : isPySpace a = false) :
    pyStrip (a :: u) = a :: (u.reverse.dropWhile isPySpace).reverse := by
  unfold pyStrip
  rw [List.dropWhile_cons_of_neg (by simp [ha])]
  exact rstrip_cons ha

theorem pyStrip_no_strip {l : List Char}
    (hh : ∀ a, l.head? = some a → isPySpace a = false)
    (hl : ∀ a, l.getLast? = some a → isPySpace a = false) : pyStrip l = l := by
  unfold pyStrip
  have h1 : l.dropWhile isPySpace = l := by
    cases l with
    | nil => rfl
    | cons c t => exact List.dropWhile_cons_of_neg (by simp [hh c rfl])
  rw [h1]
  have h2 : l.reverse.dropWhile isPySpace = l.reverse := by
    rcases hr : l.reverse with _ | ⟨c, t⟩
    · rfl
    · have hgl : l.getLast? = some c := by
        rw [← List.head?_reverse, hr]
        rfl
      exact List.dropWhile_cons_of_neg (by simp [hl c hgl])
  rw [h2, List.reverse_reverse]

theorem pyStrip_getLast {l : List Char} {b : Char}
    (h : (pyStrip l).getLast? = some b) : isPySpace b = false := by
  unfold pyStrip at h
  rw [List.getLast?_reverse] at h
  exact dropWhile_head_not h

theorem mem_of_mem_pyStrip {a : Char} {l : List Char} (h : a ∈ pyStrip l) : a ∈ l := by
  unfold pyStrip at h
  rw [List.mem_reverse] at h
  have h2 := (List.dropWhile_sublist (l := (l.dropWhile isPySpace).reverse) isPySpace).mem h
  rw [List.mem_reverse] at h2
  exact (List.dropWhile_sublist isPySpace).mem h2

theorem spanAppend {t : List Char}
    (ht : ∀ a, t.head? = some a → isPySpace a = false) :
    ∀ sp : List Char, sp.all isPySpace = true →
      (sp ++ t).takeWhile isPySpace = sp ∧ (sp ++ t).dropWhile isPySpace = t := by
  intro sp
  induction sp with
  | nil =>
    intro _
    constructor
    · cases t with
      | nil => rfl
      | cons c r =>
        rw [List.nil_append]
        exact List.takeWhile_cons_of_neg (by simp [ht c rfl])
    · cases t with
      | nil => rfl
      | cons c r =>
        rw [List.nil_append]
        exact List.dropWhile_cons_of_neg (by simp [ht c rfl])
  | cons c sp ih =>
    intro hall
    simp only [List.all_cons, Bool.and_eq_true] at hall
    rcases ih hall.2 with ⟨i1, i2⟩
    constructor
    · rw [List.cons_append, List.takeWhile_cons_of_pos hall.1, i1]
    · rw [List.cons_append, List.dropWhile_cons_of_pos hall.1, i2]

/-! ## matchH2 lemmas (for C6) -/

/-- Decomposition of a successful `matchH2` on a stripped line. -/
theorem matchH2_eq {cs pfx txt : List Char} (h : matchH2 cs = some (pfx, txt)) :
    ∃ sp, pfx = '#' :: '#' :: sp ∧ sp ≠ [] ∧ sp.all isPySpace = true ∧ txt ≠ [] ∧
      cs = '#' :: '#' :: (sp ++ txt) ∧ (∀ a, txt.head? = some a → isPySpace a = false) := by
  unfold matchH2 at h
  simp only [bind, Option.bind] at h
  rcases h1 : takeLits ['#', '#'] cs with _ | r1 <;> rw [h1] at h <;> dsimp only at h
  · exact Option.noConfusion h
  · by_cases hc : r1.takeWhile isPySpace ≠ [] ∧ r1.dropWhile isPySpace ≠ []
    · rw [if_pos hc] at h
      simp only [Option.some_inj, Prod.mk.injEq] at h
      rcases h with ⟨hp, ht⟩
      refine ⟨r1.takeWhile isPySpace, hp.symm, hc.1, ?_, ?_, ?_, ?_⟩
      · rw [List.all_eq_true]
        intro a ha
        exact List.mem_takeWhile_imp ha
      · rw [← ht]
        exact hc.2
      · rw [takeLits_eq h1, ← ht]
        simp [List.takeWhile_append_dropWhile]
      · intro a ha
        rw [← ht] at ha
        exact dropWhile_head_not ha
    · rw [if_neg hc] at h
      exact Option.noConfusion h

/-- Rebuilding: `matchH2` on the stripped rewritten line `## + ws + t`
recovers the prefix and the new text. -/
theorem matchH2_build {sp t : List Char} (hsp : sp ≠ []) (hspall : sp.all isPySpace = true)
    (ht : t ≠ []) (hth : ∀ a, t.head? = some a → isPySpace a = false)
    (htl : ∀ a, t.getLast? = some a → isPySpace a = false) :
    matchH2 (pyStrip (('#' :: '#' :: sp) ++ t)) = some ('#' :: '#' :: sp, t) := by
  have hps : pyStrip (('#' :: '#' :: sp) ++ t) = ('#' :: '#' :: sp) ++ t := by
    refine pyStrip_no_strip ?_ ?_
    · intro a ha
      simp only [List.cons_append, List.head?_cons, Option.some_inj] at ha
      subst ha
      decide
    · intro a ha
      rw [List.getLast?_append_of_ne_nil _ ht] at ha
      exact htl a ha
  rw [hps]
  unfold matchH2
  simp only [bind, Option.bind]
  have h1 : takeLits ['#', '#'] (('#' :: '#' :: sp) ++ t) = some (sp ++ t) := by
    simp [takeLits]
  rw [h1]
  dsimp only
  rcases spanAppend hth sp hspall with ⟨e1, e2⟩
  rw [e1, e2, if_pos ⟨hsp, ht⟩]

/-! ## Line-level find/update lemmas (for C6) -/

theorem findH2_lines_props :
    ∀ (ls : List (List Char)) (h2 : List Char),
      (∀ l ∈ ls, '\n' ∈ l → False) → findH2Lines ls = some h2 →
      h2 ≠ [] ∧ (∀ a, h2.head? = some a → isPySpace a = false) ∧
      (∀ a, h2.getLast? = some a → isPySpace a = false) ∧ ('\n' ∈ h2 → False) := by
  intro ls
  induction ls with
  | nil =>
    intro h2 _ h
    exact Option.noConfusion h
  | cons l rest ih =>
    intro h2 hnl h
    simp only [findH2Lines] at h
    rcases hm : matchH2 (pyStrip l) with _ | ⟨pfx, txt⟩ <;> rw [hm] at h
    · exact ih h2 (fun x hx => hnl x (List.mem_cons_of_mem _ hx)) h
    · simp only [Option.some_inj] at h
      subst h
      rcases matchH2_eq hm with ⟨sp, _, _, _, htne, hcs, hthead⟩
      obtain ⟨a, u, rfl⟩ : ∃ a u, txt = a :: u := by
        rcases txt with _ | ⟨a, u⟩
        · exact absurd rfl htne
        · exact ⟨a, u, rfl⟩
      have ha : isPySpace a = false := hthead a rfl
      have hstrip : pyStrip (a :: u) = a :: (u.reverse.dropWhile isPySpace).reverse :=
        pyStrip_cons_head ha
      refine ⟨by rw [hstrip]; simp, ?_, ?_, ?_⟩
      · intro b hb
        rw [hstrip] at hb
        simp only [List.head?_cons, Option.some_inj] at hb
        subst hb
        exact ha
      · intro b hb
        exact pyStrip_getLast hb
      · intro hmem
        have h1 : ('\n' : Char) ∈ a :: u := mem_of_mem_pyStrip hmem
        have h2m : ('\n' : Char) ∈ pyStrip l := by
          rw [hcs]
          exact List.mem_cons_of_mem _ (List.mem_cons_of_mem _ (List.mem_append_right _ h1))
        exact hnl l (List.mem_cons_self _ _) (mem_of_mem_pyStrip h2m)

theorem updateH2_lines_find :
    ∀ (ls : List (List Char)) (h2 t : List Char),
      findH2Lines ls = some h2 →
      t ≠ [] → (∀ a, t.head? = some a → isPySpace a = false) →
      (∀ a, t.getLast? = some a → isPySpace a = false) →
      findH2Lines (updateH2Lines t ls) = some t := by
  intro ls
  induction ls with
  | nil =>
    intro h2 t h
    exact absurd h (by simp [findH2Lines])
  | cons l rest ih =>
    intro h2 t h htne hth htl
    simp only [findH2Lines] at h
    simp only [updateH2Lines]
    rcases hm : matchH2 (pyStrip l) with _ | ⟨pfx, txt⟩ <;> rw [hm] at h
    · dsimp only
      simp only [findH2Lines, hm]
      exact ih h2 t h htne hth htl
    · dsimp only
      rcases matchH2_eq hm with ⟨sp, hpfx, hspne, hspall, _, _, _⟩
      simp only [findH2Lines]
      rw [hpfx, matchH2_build hspne hspall htne hth htl]
      dsimp only
      rw [pyStrip_no_strip hth htl]

theorem updateH2_lines_nl :
    ∀ (ls : List (List Char)) (t : List Char),
      (∀ l ∈ ls, '\n' ∈ l → False) → ('\n' ∈ t → False) →
      ∀ l ∈ updateH2Lines t ls, '\n' ∈ l → False := by
  intro ls
  induction ls with
  | nil =>
    intro t _ _ l hl
    exact absurd hl (List.not_mem_nil _)
  | cons l0 rest ih =>
    intro t hnl htnl l hl hmem
    simp only [updateH2Lines] at hl
    rcases hm : matchH2 (pyStrip l0) with _ | ⟨pfx, txt⟩ <;> rw [hm] at hl <;> dsimp only at hl
    · rcases List.mem_cons.mp hl with rfl | h2
      · exact hnl l (List.mem_cons_self _ _) hmem
      · exact ih t (fun x hx => hnl x (List.mem_cons_of_mem _ hx)) htnl l h2 hmem
    · rcases List.mem_cons.mp hl with rfl | h2
      · rcases List.mem_append.mp hmem with hp | ht2
        · rcases matchH2_eq hm with ⟨sp, hpfx, _, _, _, hcs, _⟩
          rw [hpfx] at hp
          rcases List.mem_cons.mp hp with he | hp2
          · exact absurd he.symm (by decide)
          · rcases List.mem_cons.mp hp2 with he | hp3
            · exact absurd he.symm (by decide)
            · have : ('\n' : Char) ∈ pyStrip l0 := by
                rw [hcs]
                exact List.mem_cons_of_mem _
                  (List.mem_cons_of_mem _ (List.mem_append_left _ hp3))
              exact hnl l0 (List.mem_cons_self _ _) (mem_of_mem_pyStrip this)
        · exact htnl ht2
      · exact hnl l (List.mem_cons_of_mem _ h2) hmem

theorem updateH2_lines_ne_nil {ls : List (List Char)} (t : List Char) (h : ls ≠ []) :
    updateH2Lines t ls ≠ [] := by
  rcases ls with _ | ⟨l, rest⟩
  · exact absurd rfl h
  · simp only [updateH2Lines]
    rcases matchH2 (pyStrip l) with _ | ⟨pfx, txt⟩ <;> simp

theorem titleOk_eq {t : String} (h : titleOk t = true) :
    t.toList ≠ [] ∧ (∀ a, t.toList.head? = some a → isPySpace a = false) ∧
    (∀ a, t.toList.getLast? = some a → isPySpace a = false) ∧ ('\n' ∈ t.toList → False) := by
  unfold titleOk at h
  simp only [Bool.and_eq_true] at h
  rcases h with ⟨⟨h1, h2⟩, h3⟩
  have hcont : t.toList.contains '\n' = false := by
    rcases hc : t.toList.contains '\n' with _ | _
    · rfl
    · rw [hc] at h3
      exact absurd h3 (by decide)
  refine ⟨?_, ?_, ?_, ?_⟩
  · intro hnil
    rw [hnil] at h1
    exact absurd h1 (by decide)
  · intro a ha
    rw [ha] at h1
    simp only [Bool.not_eq_true'] at h1
    exact h1
  · intro a ha
    rw [ha] at h2
    simp only [Bool.not_eq_true'] at h2
    exact h2
  · intro hm
    simp [List.contains_eq_any_beq] at hcont
    exact hcont hm

/-! ## C6: heading/title reconciliation -/

/-- C6.  In `process_md_file`, when the first level-2 heading contains the
current title, the title becomes the heading and the heading text is left
unchanged (the concrete `"Basics"` / `"Variables and Basics"` case is the
last two conjuncts, with the body literally untouched); otherwise the
title becomes heading-plus-title joined by one space and the heading is
rewritten to that same string, so that (for a well-formed title) the
rewritten body's first heading reads back as exactly the new title. -/
theorem reconcile_title_heading_spec :
    (∀ (title body h2 : String), find_first_h2_title body = some h2 →
      (isSubstr title.toList h2.toList = true →
        process_md_file_core title body = (h2, update_first_h2_title body h2) ∧
        find_first_h2_title (update_first_h2_title body h2) = some h2) ∧
      (isSubstr title.toList h2.toList = false →
        process_md_file_core title body =
          (h2 ++ " " ++ title, update_first_h2_title body (h2 ++ " " ++ title)) ∧
        (titleOk title = true →
          find_first_h2_title (update_first_h2_title body (h2 ++ " " ++ title)) =
            some (h2 ++ " " ++ title)))) ∧
    reconcile_title "Basics" "Variables and Basics" = "Variables and Basics" ∧
    process_md_file_core "Basics" "intro\n## Variables and Basics\nrest" =
      ("Variables and Basics", "intro\n## Variables and Basics\nrest") := by
  refine ⟨?_, by decide, by decide⟩
  intro title body h2 hfind
  obtain ⟨cs, hcs, rfl⟩ : ∃ cs, findH2Lines (splitNl body.toList) = some cs ∧ h2 = ⟨cs⟩ := by
    unfold find_first_h2_title at hfind
    rcases hx : findH2Lines (splitNl body.toList) with _ | cs <;> rw [hx] at hfind
    · exact Option.noConfusion hfind
    · simp only [Option.map_some', Option.some_inj] at hfind
      exact ⟨cs, rfl, hfind.symm⟩
  rcases findH2_lines_props _ cs (splitNl_no_nl body.toList) hcs with ⟨hne, hhd, hlast, hnl⟩
  have hupdate : ∀ t : List Char, t ≠ [] →
      (∀ a, t.head? = some a → isPySpace a = false) →
      (∀ a, t.getLast? = some a → isPySpace a = false) → ('\n' ∈ t → False) →
      find_first_h2_title (update_first_h2_title body ⟨t⟩) = some ⟨t⟩ := by
    intro t htne hth htl htnl
    unfold update_first_h2_title find_first_h2_title
    have hls : splitNl (joinNl (updateH2Lines t (splitNl body.toList))) =
        updateH2Lines t (splitNl body.toList) := by
      refine splitNl_joinNl _ (updateH2_lines_ne_nil t (splitNl_ne_nil _)) ?_
      exact updateH2_lines_nl _ t (splitNl_no_nl body.toList) htnl
    have htoList : (⟨joinNl (updateH2Lines t (splitNl body.toList))⟩ : String).toList =
        joinNl (updateH2Lines t (splitNl body.toList)) := rfl
    have htt : (⟨t⟩ : String).toList = t := rfl
    rw [htt, htoList, hls, updateH2_lines_find _ cs t hcs htne hth htl]
    rfl
  constructor
  · intro hsub
    constructor
    · unfold process_md_file_core
      rw [hfind]
      dsimp only
      unfold reconcile_title
      rw [if_pos hsub]
    · exact hupdate cs hne hhd hlast hnl
  · intro hsub
    have hnt : ((⟨cs⟩ : String) ++ " " ++ title).toList = (cs ++ [' ']) ++ title.toList := by
      simp [String.toList]
    constructor
    · unfold process_md_file_core
      rw [hfind]
      dsimp only
      unfold reconcile_title
      rw [if_neg (by rw [hsub]; exact Bool.false_ne_true)]
    · intro hok
      rcases titleOk_eq hok with ⟨htne, hth, htl, htnl⟩
      have heta : ((⟨cs⟩ : String) ++ " " ++ title) = ⟨(cs ++ [' ']) ++ title.toList⟩ := by
        apply String.ext
        exact hnt
      rw [heta]
      refine hupdate _ ?_ ?_ ?_ ?_
      · simp
      · intro a ha
        rcases hx : cs with _ | ⟨c0, cr⟩
        · exact absurd hx hne
        · rw [hx] at ha
          simp only [List.cons_append, List.head?_cons, Option.some_inj] at ha
          have hc0 := hhd c0 (by rw [hx]; rfl)
          exact ha ▸ hc0
      · intro a ha
        rw [List.getLast?_append_of_ne_nil _ htne] at ha
        exact htl a ha
      · intro hm
        rcases List.mem_append.mp hm with h1 | h2
        · rcases List.mem_append.mp h1 with h3 | h4
          · exact hnl h3
          · rcases List.mem_singleton.mp h4 with h5
            exact absurd h5 (by decide)
        · exact htnl h2

/-- C6 witness: both branches at concrete inputs. -/
theorem reconcile_title_heading_spec_witness :
    process_md_file_core "Basics" "a\n## Variables and Basics\nb" =
      ("Variables and Basics", update_first_h2_title "a\n## Variables and Basics\nb"
        "Variables and Basics") ∧
    find_first_h2_title (update_first_h2_title "x\n## Head\ny" ("Head" ++ " " ++ "Tail")) =
      some ("Head" ++ " " ++ "Tail") := by
  constructor
  · exact ((reconcile_title_heading_spec.1 "Basics" "a\n## Variables and Basics\nb"
      "Variables and Basics" (by decide)).1 (by decide)).1
  · exact ((reconcile_title_heading_spec.1 "Tail" "x\n## Head\ny" "Head"
      (by decide)).2 (by decide)).2 (by decide)

/-! ## Weight assignment lemmas (for C2 and C1) -/

theorem setWeightFrom_length : ∀ (w : Int) (l : List DocInfo),
    (setWeightFrom w l).length = l.length := by
  intro w l
  induction l generalizing w with
  | nil => rfl
  | cons d t ih => simp [setWeightFrom, ih]

theorem setWeightFrom_map_eraseW : ∀ (w : Int) (l : List DocInfo),
    (setWeightFrom w l).map eraseW = l.map eraseW := by
  intro w l
  induction l generalizing w with
  | nil => rfl
  | cons d t ih => simp [setWeightFrom, ih, eraseW]

theorem setWeightFrom_filenames : ∀ (w : Int) (l : List DocInfo),
    (setWeightFrom w l).map (fun d => d.filename) = l.map (fun d => d.filename) := by
  intro w l
  induction l generalizing w with
  | nil => rfl
  | cons d t ih => simp [setWeightFrom, ih]

theorem setWeightFrom_get : ∀ (l : List DocInfo) (w : Int) (i : Nat)
    (hi : i < (setWeightFrom w l).length),
    ∃ hj : i < l.length,
      (setWeightFrom w l).get ⟨i, hi⟩ =
        { l.get ⟨i, hj⟩ with
          fm := { (l.get ⟨i, hj⟩).fm with weight := some (w + i + 1) } } := by
  intro l
  induction l with
  | nil =>
    intro w i hi
    rw [setWeightFrom] at hi
    exact absurd hi (by simp)
  | cons d t ih =>
    intro w i hi
    rcases i with _ | i
    · refine ⟨by simp, ?_⟩
      have he : w + ((0 : Nat) : Int) + 1 = w + 1 := by simp
      rw [he]
      rfl
    · have hi' : i < (setWeightFrom (w + 1) t).length := by
        rw [setWeightFrom, List.length_cons] at hi
        omega
      rcases ih (w + 1) i hi' with ⟨hj, heq⟩
      refine ⟨by simp only [List.length_cons]; omega, ?_⟩
      have hstep : (setWeightFrom w (d :: t)).get ⟨i + 1, hi⟩ =
          (setWeightFrom (w + 1) t).get ⟨i, hi'⟩ := rfl
      rw [hstep, heq]
      have he : w + 1 + (i : Int) + 1 = w + ((i + 1 : Nat) : Int) + 1 := by
        push_cast
        ring
      rw [he]
      rfl

theorem sortKeyL_inj_filename {a b : DocInfo} (h : sortKeyL a = sortKeyL b) :
    a.filename = b.filename := by
  unfold sortKeyL at h
  have hlen : (keyList a.key).length = (keyList b.key).length := rfl
  rcases List.append_inj h hlen with ⟨_, h2⟩
  have hinj : Function.Injective Char.toNat := by
    intro x y hxy
    have hx := Char.ofNat_toNat x
    rw [← hx, hxy, Char.ofNat_toNat]
  have h3 : a.filename.toList = b.filename.toList :=
    List.map_injective_iff.mpr hinj h2
  exact String.toList_inj.mp h3

/-! ## C2: weight assignment -/

/-- C2 counterexample.  Directory with already-weighted document `a`
(weight 5, the directory's maximum) and unweighted document `b`.  The claim
says `b` receives 5+1 = 6 and `a` keeps 5.  The code sorts both documents
and renumbers them all: `a` becomes 6 and `b` becomes 7, so the weighted
document does not keep its weight and the unweighted one does not get
`W+1`. -/
theorem assign_weights_cex :
    get_max_weight_in_directory cexDocsW = 5 ∧
    (assign_weights_by_date (cexDocsW.filterMap mkInfo) cexDocsW).map
        (fun d => (d.filename, d.fm.weight)) =
      [("2020-01-01-a.md", some 6), ("2020-01-02-b.md", some 7)] ∧
    ¬ ((assign_weights_by_date (cexDocsW.filterMap mkInfo) cexDocsW).map
        (fun d => (d.filename, d.fm.weight)) =
      [("2020-01-01-a.md", some 5), ("2020-01-02-b.md", some 6)]) := by
  refine ⟨by decide, by decide, by decide⟩

/-- C2 amended.  For a directory whose on-disk maximum weight is `W`,
`assign_weights_by_date` renumbers all `N` parseable documents (not only
the unweighted ones): apart from weights nothing changes and no document
keeps a prior weight slot, the `i`-th document of the output carries
weight `W + i + 1` — so the weights handed out are exactly
`{W+1, …, W+N}` — and (for distinct filenames) the output is strictly
ascending in the (parsed date, filename) sort key. -/
theorem assign_weights_by_date_spec :
    ∀ (files : List DocInfo) (disk : List Doc),
      (files.map (fun d => d.filename)).Nodup →
      ((assign_weights_by_date files disk).map eraseW).Perm (files.map eraseW) ∧
      (assign_weights_by_date files disk).length = files.length ∧
      (∀ (i : Nat) (hi : i < (assign_weights_by_date files disk).length),
        ((assign_weights_by_date files disk).get ⟨i, hi⟩).fm.weight =
          some (get_max_weight_in_directory disk + i + 1)) ∧
      (∀ (i j : Nat) (hi : i < (assign_weights_by_date files disk).length)
          (hj : j < (assign_weights_by_date files disk).length), i < j →
        sortKeyL ((assign_weights_by_date files disk).get ⟨i, hi⟩) <
          sortKeyL ((assign_weights_by_date files disk).get ⟨j, hj⟩)) := by
  intro files disk hnd
  have hperm : (sortInfos files).Perm files := List.perm_insertionSort docLE files
  have hsorted : List.Sorted docLE (sortInfos files) := List.sorted_insertionSort docLE files
  refine ⟨?_, ?_, ?_, ?_⟩
  · unfold assign_weights_by_date
    rw [setWeightFrom_map_eraseW]
    exact hperm.map eraseW
  · unfold assign_weights_by_date
    rw [setWeightFrom_length]
    exact hperm.length_eq
  · intro i hi
    unfold assign_weights_by_date at hi ⊢
    rcases setWeightFrom_get (sortInfos files) _ i hi with ⟨hj, heq⟩
    rw [heq]
  · intro i j hi hj hij
    unfold assign_weights_by_date at hi hj ⊢
    rcases setWeightFrom_get (sortInfos files) _ i hi with ⟨hi', heqi⟩
    rcases setWeightFrom_get (sortInfos files) _ j hj with ⟨hj', heqj⟩
    rw [heqi, heqj]
    show sortKeyL ((sortInfos files).get ⟨i, hi'⟩) < sortKeyL ((sortInfos files).get ⟨j, hj'⟩)
    have hle : docLE ((sortInfos files).get ⟨i, hi'⟩) ((sortInfos files).get ⟨j, hj'⟩) :=
      List.pairwise_iff_get.mp hsorted ⟨i, hi'⟩ ⟨j, hj'⟩ hij
    refine lt_of_le_of_ne hle ?_
    intro hkeq
    have hfn : ((sortInfos files).get ⟨i, hi'⟩).filename =
        ((sortInfos files).get ⟨j, hj'⟩).filename := sortKeyL_inj_filename hkeq
    have hndm : ((sortInfos files).map (fun d => d.filename)).Nodup :=
      ((hperm.map (fun d => d.filename)).nodup_iff).mpr hnd
    have hi'' : i < ((sortInfos files).map (fun d => d.filename)).length := by
      rw [List.length_map]
      exact hi'
    have hj'' : j < ((sortInfos files).map (fun d => d.filename)).length := by
      rw [List.length_map]
      exact hj'
    have hgi : ((sortInfos files).map (fun d => d.filename)).get ⟨i, hi''⟩ =
        ((sortInfos files).get ⟨i, hi'⟩).filename := by
      rw [List.get_map]
    have hgj : ((sortInfos files).map (fun d => d.filename)).get ⟨j, hj''⟩ =
        ((sortInfos files).get ⟨j, hj'⟩).filename := by
      rw [List.get_map]
    have : (⟨i, hi''⟩ : Fin _) = ⟨j, hj''⟩ := by
      refine (List.Nodup.get_inj_iff hndm).mp ?_
      rw [hgi, hgj, hfn]
    have := congrArg Fin.val this
    simp only at this
    omega

/-- C2 witness: the amended theorem applied to the concrete two-document
directory of the counterexample (distinct filenames discharged by
computation): both conjuncts instantiated at index 0. -/
theorem assign_weights_by_date_spec_witness :
    ((assign_weights_by_date (cexDocsW.filterMap mkInfo) cexDocsW).map eraseW).Perm
      ((cexDocsW.filterMap mkInfo).map eraseW) := by
  exact (assign_weights_by_date_spec (cexDocsW.filterMap mkInfo) cexDocsW (by decide)).1

/-! ## Per-rule lemmas (for C1) -/

theorem dateRule_false {fm : Frontmatter} (h : (dateRule fm).2 = false) :
    (dateRule fm).1 = fm := by
  unfold dateRule at h ⊢
  rcases hd : fm.date with _ | ds
  · rfl
  · rw [hd] at h
    dsimp only at h ⊢
    rcases hc : convert_date_format ds with _ | nd
    · rfl
    · rw [hc] at h
      dsimp only at h ⊢
      by_cases hne : nd ≠ ds
      · rw [if_pos hne] at h
        simp at h
      · rw [if_neg hne]

theorem titleRule_false {fm : Frontmatter} (h : (titleRule fm).2 = false) :
    (titleRule fm).1 = fm := by
  unfold titleRule at h ⊢
  rcases hd : fm.title with _ | t
  · rfl
  · rw [hd] at h
    dsimp only at h ⊢
    by_cases hne : clean_title t ≠ t
    · rw [if_pos hne] at h
      simp at h
    · rw [if_neg hne]

theorem slugRule_false {fn : String} {fm : Frontmatter} (h : (slugRule fn fm).2 = false) :
    (slugRule fn fm).1 = fm := by
  unfold slugRule at h ⊢
  by_cases hne : fm.slug ≠ some (extract_slug_from_filename fn)
  · rw [if_pos hne] at h
    simp at h
  · rw [if_neg hne]

theorem typeRule_false {fm : Frontmatter} (h : (typeRule fm).2 = false) :
    (typeRule fm).1 = fm := by
  unfold typeRule at h ⊢
  by_cases hne : fm.type ≠ some "docs"
  · rw [if_pos hne] at h
    simp at h
  · rw [if_neg hne]

theorem dateRule_flag_congr {fm g : Frontmatter} (h : g.date = fm.date) :
    (dateRule g).2 = (dateRule fm).2 := by
  unfold dateRule
  rw [h]
  rcases hd : fm.date with _ | ds
  · rfl
  · dsimp only
    rcases hc : convert_date_format ds with _ | nd
    · rfl
    · dsimp only
      by_cases hne : nd ≠ ds
      · rw [if_pos hne, if_pos hne]
      · rw [if_neg hne, if_neg hne]

theorem titleRule_flag_congr {fm g : Frontmatter} (h : g.title = fm.title) :
    (titleRule g).2 = (titleRule fm).2 := by
  unfold titleRule
  rw [h]
  rcases hd : fm.title with _ | t
  · rfl
  · dsimp only
    by_cases hne : clean_title t ≠ t
    · rw [if_pos hne, if_pos hne]
    · rw [if_neg hne, if_neg hne]

theorem slugRule_flag_congr {fn : String} {fm g : Frontmatter} (h : g.slug = fm.slug) :
    (slugRule fn g).2 = (slugRule fn fm).2 := by
  unfold slugRule
  dsimp only
  rw [h]
  by_cases hne : fm.slug ≠ some (extract_slug_from_filename fn)
  · rw [if_pos hne, if_pos hne]
  · rw [if_neg hne, if_neg hne]

theorem typeRule_flag_congr {fm g : Frontmatter} (h : g.type = fm.type) :
    (typeRule g).2 = (typeRule fm).2 := by
  unfold typeRule
  rw [h]
  by_cases hne : fm.type ≠ some "docs"
  · rw [if_pos hne, if_pos hne]
  · rw [if_neg hne, if_neg hne]

theorem rulesClean_congr {fn : String} {fm g : Frontmatter}
    (hd : g.date = fm.date) (ht : g.title = fm.title) (hs : g.slug = fm.slug)
    (hy : g.type = fm.type) : rulesClean fn g = rulesClean fn fm := by
  unfold rulesClean
  rw [dateRule_flag_congr hd, titleRule_flag_congr ht, slugRule_flag_congr hs,
    typeRule_flag_congr hy]

theorem dateRule_idem {fm g : Frontmatter} (hg : g.date = (dateRule fm).1.date) :
    (dateRule g).2 = false := by
  unfold dateRule at hg
  rcases hd : fm.date with _ | ds <;> rw [hd] at hg <;> dsimp only at hg
  · unfold dateRule
    rw [hg, hd]
  · rcases hc : convert_date_format ds with _ | nd <;> rw [hc] at hg <;> dsimp only at hg
    · unfold dateRule
      rw [hg, hd]
      dsimp only
      rw [hc]
    · by_cases hne : nd ≠ ds
      · rw [if_pos hne] at hg
        dsimp only at hg
        unfold dateRule
        rw [hg]
        dsimp only
        rw [convert_idem hc]
        dsimp only
        simp
      · rw [if_neg hne] at hg
        dsimp only at hg
        rw [not_not] at hne
        unfold dateRule
        rw [hg, hd]
        dsimp only
        rw [hc, hne]
        dsimp only
        simp

theorem titleRule_idem {fm g : Frontmatter}
    (hstab : ∀ t, fm.title = some t → clean_title (clean_title t) = clean_title t)
    (hg : g.title = (titleRule fm).1.title) : (titleRule g).2 = false := by
  unfold titleRule at hg
  rcases hd : fm.title with _ | t <;> rw [hd] at hg <;> dsimp only at hg
  · unfold titleRule
    rw [hg, hd]
  · by_cases hne : clean_title t ≠ t
    · rw [if_pos hne] at hg
      dsimp only at hg
      unfold titleRule
      rw [hg]
      dsimp only
      rw [hstab t hd]
      simp
    · rw [if_neg hne] at hg
      dsimp only at hg
      rw [not_not] at hne
      unfold titleRule
      rw [hg, hd]
      dsimp only
      rw [hne]
      simp

theorem slugRule_idem {fn : String} {g : Frontmatter}
    (hg : g.slug = some (extract_slug_from_filename fn)) : (slugRule fn g).2 = false := by
  unfold slugRule
  rw [if_neg (by rw [hg]; exact not_not_intro rfl)]

theorem typeRule_idem {g : Frontmatter} (hg : g.type = some "docs") :
    (typeRule g).2 = false := by
  unfold typeRule
  rw [if_neg (by rw [hg]; exact not_not_intro rfl)]

/-! ## Rule-chain and pipeline lemmas (for C1) -/

theorem dateRule_keeps (fm : Frontmatter) :
    (dateRule fm).1.title = fm.title ∧ (dateRule fm).1.slug = fm.slug ∧
      (dateRule fm).1.type = fm.type ∧ (dateRule fm).1.weight = fm.weight := by
  unfold dateRule
  rcases hd : fm.date with _ | ds
  · exact ⟨rfl, rfl, rfl, rfl⟩
  · dsimp only
    rcases hc : convert_date_format ds with _ | nd
    · exact ⟨rfl, rfl, rfl, rfl⟩
    · dsimp only
      by_cases hne : nd ≠ ds
      · rw [if_pos hne]
        exact ⟨rfl, rfl, rfl, rfl⟩
      · rw [if_neg hne]
        exact ⟨rfl, rfl, rfl, rfl⟩

theorem titleRule_keeps (fm : Frontmatter) :
    (titleRule fm).1.date = fm.date ∧ (titleRule fm).1.slug = fm.slug ∧
      (titleRule fm).1.type = fm.type ∧ (titleRule fm).1.weight = fm.weight := by
  unfold titleRule
  rcases hd : fm.title with _ | t
  · exact ⟨rfl, rfl, rfl, rfl⟩
  · dsimp only
    by_cases hne : clean_title t ≠ t
    · rw [if_pos hne]
      exact ⟨rfl, rfl, rfl, rfl⟩
    · rw [if_neg hne]
      exact ⟨rfl, rfl, rfl, rfl⟩

theorem slugRule_keeps (fn : String) (fm : Frontmatter) :
    (slugRule fn fm).1.title = fm.title ∧ (slugRule fn fm).1.date = fm.date ∧
      (slugRule fn fm).1.type = fm.type ∧ (slugRule fn fm).1.weight = fm.weight := by
  unfold slugRule
  dsimp only
  by_cases hne : fm.slug ≠ some (extract_slug_from_filename fn)
  · rw [if_pos hne]
    exact ⟨rfl, rfl, rfl, rfl⟩
  · rw [if_neg hne]
    exact ⟨rfl, rfl, rfl, rfl⟩

theorem typeRule_keeps (fm : Frontmatter) :
    (typeRule fm).1.title = fm.title ∧ (typeRule fm).1.date = fm.date ∧
      (typeRule fm).1.slug = fm.slug ∧ (typeRule fm).1.weight = fm.weight := by
  unfold typeRule
  by_cases hne : fm.type ≠ some "docs"
  · rw [if_pos hne]
    exact ⟨rfl, rfl, rfl, rfl⟩
  · rw [if_neg hne]
    exact ⟨rfl, rfl, rfl, rfl⟩

theorem slugRule_sets (fn : String) (fm : Frontmatter) :
    (slugRule fn fm).1.slug = some (extract_slug_from_filename fn) := by
  unfold slugRule
  dsimp only
  by_cases hne : fm.slug ≠ some (extract_slug_from_filename fn)
  · rw [if_pos hne]
  · rw [if_neg hne]
    exact not_not.mp hne

theorem typeRule_sets (fm : Frontmatter) : (typeRule fm).1.type = some "docs" := by
  unfold typeRule
  by_cases hne : fm.type ≠ some "docs"
  · rw [if_pos hne]
  · rw [if_neg hne]
    exact not_not.mp hne

theorem rulesClean_weight_congr (fn : String) (fm : Frontmatter) (w : Option Int) :
    rulesClean fn { fm with weight := w } = rulesClean fn fm :=
  rulesClean_congr rfl rfl rfl rfl

/-- After a full chain of the four rules (in the order of the write loop),
the result is a fixed point of every rule — provided one title cleanup is a
`clean_title` fixed point for this document's title. -/
theorem chain_clean {fn : String} {fm : Frontmatter}
    (hstab : ∀ t, fm.title = some t → clean_title (clean_title t) = clean_title t) :
    rulesClean fn (typeRule (slugRule fn (titleRule (dateRule fm).1).1).1).1 = true := by
  obtain ⟨kd1, kd2, kd3, kd4⟩ := dateRule_keeps fm
  obtain ⟨kt1, kt2, kt3, kt4⟩ := titleRule_keeps (dateRule fm).1
  obtain ⟨ks1, ks2, ks3, ks4⟩ := slugRule_keeps fn (titleRule (dateRule fm).1).1
  obtain ⟨ky1, ky2, ky3, ky4⟩ := typeRule_keeps (slugRule fn (titleRule (dateRule fm).1).1).1
  have h1 : (dateRule (typeRule (slugRule fn (titleRule (dateRule fm).1).1).1).1).2 = false :=
    dateRule_idem (ky2.trans (ks2.trans kt1))
  have h2 : (titleRule (typeRule (slugRule fn (titleRule (dateRule fm).1).1).1).1).2 = false :=
    titleRule_idem (fun t ht => hstab t (kd1.symm.trans ht)) (ky1.trans ks1)
  have h3 :
      (slugRule fn (typeRule (slugRule fn (titleRule (dateRule fm).1).1).1).1).2 = false :=
    slugRule_idem (ky3.trans (slugRule_sets fn (titleRule (dateRule fm).1).1))
  have h4 : (typeRule (typeRule (slugRule fn (titleRule (dateRule fm).1).1).1).1).2 = false :=
    typeRule_idem (typeRule_sets (slugRule fn (titleRule (dateRule fm).1).1).1)
  unfold rulesClean
  rw [h1, h2, h3, h4]
  rfl

theorem processOne_fm_isSome (e : DocInfo) : (processOne e).fm.isSome = true := by
  unfold processOne
  dsimp only
  split
  · rfl
  · rfl

/-- When no rule fires on a document whose in-memory frontmatter carries a
weight, the write loop leaves the on-disk file as it was. -/
theorem processOne_id {e : DocInfo} (hclean : rulesClean e.filename e.fm = true)
    (hw : e.fm.weight.isSome = true) : processOne e = origDoc e := by
  have hc := hclean
  unfold rulesClean at hc
  simp only [Bool.and_eq_true, Bool.not_eq_true'] at hc
  obtain ⟨⟨⟨h1, h2⟩, h3⟩, h4⟩ := hc
  unfold processOne
  dsimp only
  rw [dateRule_false h1, titleRule_false h2, slugRule_false h3, typeRule_false h4,
    h1, h2, h3, h4]
  simp only [Bool.or_false, Bool.false_or]
  rcases hw' : e.fm.weight with _ | v
  · rw [hw'] at hw
    simp at hw
  · rw [if_neg (by simp)]
    rfl

/-- Whatever the write loop emits for a parseable document is itself
normalized, provided one title cleanup is a `clean_title` fixed point and the
on-disk header agrees with the in-memory one except possibly on weight. -/
theorem processOne_norm {e : DocInfo}
    (hstab : ∀ t, e.fm.title = some t → clean_title (clean_title t) = clean_title t)
    (ho : e.origFm.date = e.fm.date ∧ e.origFm.title = e.fm.title ∧
      e.origFm.slug = e.fm.slug ∧ e.origFm.type = e.fm.type) :
    docNormalized (processOne e) = true := by
  unfold processOne
  dsimp only
  split
  · show rulesClean e.filename
      (typeRule (slugRule e.filename (titleRule (dateRule e.fm).1).1).1).1 = true
    exact chain_clean hstab
  · rename_i hcond
    simp only [Bool.or_eq_true, not_or, Bool.not_eq_true] at hcond
    obtain ⟨⟨⟨⟨h1, h2⟩, h3⟩, h4⟩, h5⟩ := hcond
    have e1 : (dateRule e.fm).1 = e.fm := dateRule_false h1
    rw [e1] at h2
    have e2 : (titleRule e.fm).1 = e.fm := titleRule_false h2
    rw [e1, e2] at h3
    have e3 : (slugRule e.filename e.fm).1 = e.fm := slugRule_false h3
    rw [e1, e2, e3] at h4
    have hclean : rulesClean e.filename e.fm = true := by
      unfold rulesClean
      rw [h1, h2, h3, h4]
      rfl
    show rulesClean e.filename e.origFm = true
    rw [rulesClean_congr ho.1 ho.2.1 ho.2.2.1 ho.2.2.2]
    exact hclean

theorem setWeightFrom_mem : ∀ (w : Int) (l : List DocInfo) (e : DocInfo),
    e ∈ setWeightFrom w l →
    ∃ d ∈ l, ∃ v : Int, e = { d with fm := { d.fm with weight := some v } } := by
  intro w l
  induction l generalizing w with
  | nil =>
    intro e he
    rw [setWeightFrom] at he
    simp at he
  | cons d t ih =>
    intro e he
    rw [setWeightFrom, List.mem_cons] at he
    rcases he with he | he
    · exact ⟨d, List.mem_cons_self d t, w + 1, he⟩
    · rcases ih (w + 1) e he with ⟨d', hd', v, hv⟩
      exact ⟨d', List.mem_cons_of_mem d hd', v, hv⟩

theorem mkInfo_some {b : Doc} {f : DocInfo} (h : mkInfo b = some f) :
    ∃ g, b.fm = some g ∧
      f = ⟨b.filename, g, parse_date_for_sorting (g.date.getD ""),
        remove_include_lines b.body, g, b.body⟩ := by
  unfold mkInfo at h
  rcases hg : b.fm with _ | g
  · rw [hg] at h
    simp at h
  · rw [hg, Option.map_some'] at h
    exact ⟨g, rfl, (Option.some_inj.mp h).symm⟩

theorem setWeightFrom_map_origDoc : ∀ (w : Int) (l : List DocInfo),
    (setWeightFrom w l).map origDoc = l.map origDoc := by
  intro w l
  induction l generalizing w with
  | nil => rfl
  | cons d t ih => simp [setWeightFrom, ih, origDoc]

theorem filterMap_mkInfo_origDoc : ∀ L : List Doc, (∀ b ∈ L, b.fm.isSome = true) →
    (L.filterMap mkInfo).map origDoc = L := by
  intro L
  induction L with
  | nil => intro _; rfl
  | cons b t ih =>
    intro h
    have hb := h b (List.mem_cons_self b t)
    rcases hg : b.fm with _ | g
    · rw [hg] at hb
      simp at hb
    · have hmk : mkInfo b = some ⟨b.filename, g, parse_date_for_sorting (g.date.getD ""),
          remove_include_lines b.body, g, b.body⟩ := by
        unfold mkInfo
        rw [hg, Option.map_some']
      rw [List.filterMap_cons_some hmk, List.map_cons,
        ih (fun x hx => h x (List.mem_cons_of_mem b hx))]
      show (⟨b.filename, some g, b.body⟩ : Doc) :: t = b :: t
      rw [← hg]

/-- Every document the pass emits for a parseable input is normalized (and
parseable), provided one title cleanup is a `clean_title` fixed point for
every title in the directory. -/
theorem process_output_norm (l : List Doc)
    (hstab : ∀ d ∈ l, ∀ fm0, d.fm = some fm0 → ∀ t, fm0.title = some t →
      clean_title (clean_title t) = clean_title t) :
    ∀ b ∈ (assign_weights_by_date (l.filterMap mkInfo) l).map processOne,
      docNormalized b = true ∧ b.fm.isSome = true := by
  intro b hb
  rcases List.mem_map.mp hb with ⟨e, he, rfl⟩
  refine ⟨?_, processOne_fm_isSome e⟩
  unfold assign_weights_by_date at he
  rcases setWeightFrom_mem _ _ e he with ⟨f, hf, v, rfl⟩
  unfold sortInfos at hf
  have hfI : f ∈ l.filterMap mkInfo :=
    (List.perm_insertionSort docLE (l.filterMap mkInfo)).mem_iff.mp hf
  rcases List.mem_filterMap.mp hfI with ⟨d, hd, hmk⟩
  rcases mkInfo_some hmk with ⟨g, hg, rfl⟩
  refine processOne_norm ?_ ⟨rfl, rfl, rfl, rfl⟩
  intro t ht
  exact hstab d hd g hg t ht

/-- Running the pass on a directory made of unparseable documents plus
normalized parseable ones returns the directory's contents unchanged up to
order. -/
theorem process_perm_of_normalized (A B : List Doc)
    (hAnone : ∀ a ∈ A, a.fm.isNone = true)
    (hnorm : ∀ b ∈ B, docNormalized b = true ∧ b.fm.isSome = true) :
    (process_markdown_files (A ++ B)).Perm (A ++ B) := by
  have hfilter : (A ++ B).filter (fun d => d.fm.isNone) = A := by
    rw [List.filter_append]
    have h1 : A.filter (fun d => d.fm.isNone) = A := List.filter_eq_self.mpr hAnone
    have h2 : B.filter (fun d => d.fm.isNone) = [] := by
      rw [List.filter_eq_nil_iff]
      intro b hb
      have hs := (hnorm b hb).2
      rcases hfm : b.fm with _ | g
      · rw [hfm] at hs
        simp at hs
      · simp [hfm]
    rw [h1, h2, List.append_nil]
  have hfmap : (A ++ B).filterMap mkInfo = B.filterMap mkInfo := by
    rw [List.filterMap_append]
    have h1 : A.filterMap mkInfo = [] := by
      rw [List.filterMap_eq_nil_iff]
      intro a ha
      have hn := hAnone a ha
      rcases hfm : a.fm with _ | g
      · unfold mkInfo
        rw [hfm]
        rfl
      · rw [hfm] at hn
        simp at hn
    rw [h1, List.nil_append]
  have hmapid : ∀ f ∈ setWeightFrom (get_max_weight_in_directory (A ++ B))
      (sortInfos ((A ++ B).filterMap mkInfo)), processOne f = origDoc f := by
    intro f hf
    rcases setWeightFrom_mem _ _ f hf with ⟨f0, hf0, v, rfl⟩
    unfold sortInfos at hf0
    have hf0' : f0 ∈ (A ++ B).filterMap mkInfo :=
      (List.perm_insertionSort docLE ((A ++ B).filterMap mkInfo)).mem_iff.mp hf0
    rw [hfmap] at hf0'
    rcases List.mem_filterMap.mp hf0' with ⟨b, hb, hmk⟩
    rcases mkInfo_some hmk with ⟨g, hg, rfl⟩
    have hnb := (hnorm b hb).1
    unfold docNormalized at hnb
    rw [hg] at hnb
    dsimp only at hnb
    refine processOne_id ?_ rfl
    exact (rulesClean_weight_congr b.filename g (some v)).trans hnb
  have hP2 : process_markdown_files (A ++ B) =
      (A ++ B).filter (fun d => d.fm.isNone) ++
        (setWeightFrom (get_max_weight_in_directory (A ++ B))
          (sortInfos ((A ++ B).filterMap mkInfo))).map processOne := rfl
  rw [hP2, hfilter, List.map_congr_left hmapid, setWeightFrom_map_origDoc]
  refine List.Perm.append_left A ?_
  refine ((List.perm_insertionSort docLE ((A ++ B).filterMap mkInfo)).map origDoc).trans ?_
  rw [hfmap, filterMap_mkInfo_origDoc B (fun b hb => (hnorm b hb).2)]

/-! ## C1: idempotence of process_markdown_files -/

/-- C1 counterexample.  On the one-document directory `cexDocsI`, whose
title holds two strippable GESP tags, the first pass strips one tag and
stores weight 1; the second pass strips the second tag and, because the
title rule fired again, persists the new in-memory weight 2 — so the second
run changes the document (title and weight) and the claimed idempotence
fails. -/
theorem process_markdown_files_idem_cex :
    (process_markdown_files cexDocsI).map
        (fun d => d.fm.map (fun g => (g.title, g.weight))) =
      [some (some "【GESP】一级a", some 1)] ∧
    (process_markdown_files (process_markdown_files cexDocsI)).map
        (fun d => d.fm.map (fun g => (g.title, g.weight))) =
      [some (some "a", some 2)] ∧
    ¬ (process_markdown_files (process_markdown_files cexDocsI)).Perm
        (process_markdown_files cexDocsI) := by
  refine ⟨by decide, by decide, by decide⟩

/-- C1 (amended).  `process_markdown_files` is idempotent up to output
order — in particular no document's stored weight changes on the second
run, because the in-memory renumbering is persisted only when a rule
fired — provided every parseable document's title reaches a `clean_title`
fixed point after one cleanup.  Without that proviso the second run strips
the title again and rewrites the file with the new weight (see the
counterexample). -/
theorem process_markdown_files_idem (l : List Doc)
    (hstab : ∀ d ∈ l, ∀ fm0, d.fm = some fm0 → ∀ t, fm0.title = some t →
      clean_title (clean_title t) = clean_title t) :
    (process_markdown_files (process_markdown_files l)).Perm
      (process_markdown_files l) :=
  process_perm_of_normalized (l.filter (fun d => d.fm.isNone))
    ((assign_weights_by_date (l.filterMap mkInfo) l).map processOne)
    (fun _ ha => List.of_mem_filter (p := fun d : Doc => d.fm.isNone) ha)
    (process_output_norm l hstab)

/-- C1 witness: the amended idempotence theorem applied to the concrete
one-document directory `lwI`, whose sole title `"a"` is already clean. -/
theorem process_markdown_files_idem_witness :
    (process_markdown_files (process_markdown_files lwI)).Perm
      (process_markdown_files lwI) := by
  refine process_markdown_files_idem lwI ?_
  intro d hd fm0 hfm t ht
  have hd' : d =
      ⟨"2021-03-04-w.md", some ⟨some "a", some "2021-03-04", none, none, none⟩, "c"⟩ :=
    List.mem_singleton.mp hd
  subst hd'
  have hfm' : (⟨some "a", some "2021-03-04", none, none, none⟩ : Frontmatter) = fm0 :=
    Option.some_inj.mp hfm
  subst hfm'
  have ht' : "a" = t := Option.some_inj.mp ht
  subst ht'
  decide

/-! ## C3: clean_title on the spec's worked example -/

/-- C3.  The claim states `clean_title "【GESP】二级练习，示例" = "示例"`.
The code disagrees: the lazy `.*?` of both cleanup patterns is followed
only by optional pieces, so it never consumes; the match stops at `级`
(here no comma follows `级` directly), the regex removes only `【GESP】二级`,
and the function returns `"练习，示例"`.  This theorem evaluates the
embedded code at the failing input. -/
theorem clean_title_failing_input :
    clean_title "【GESP】二级练习，示例" = "练习，示例" ∧
    clean_title "【GESP】二级练习，示例" ≠ "示例" := by
  exact ⟨by decide, by decide⟩

/-! ## C9: convert_date_format is total, none only on empty, pass-through -/

/-- C9.  `convert_date_format` is a total function (the embedding is a Lean
function, and no branch of the source can raise); it returns `none`
exactly on the empty (falsy) input, and an input matching none of the
three accepted date shapes is returned unchanged. -/
theorem convert_date_format_total_spec :
    (∀ s : String, convert_date_format s = none ↔ s = "") ∧
    (∀ s : String, s ≠ "" →
      matchP1 s.toList = none → matchP2 s.toList = none → matchP3 s.toList = none →
      convert_date_format s = some s) := by
  have hne : ∀ s : String, s ≠ "" → s.isEmpty = false := by
    intro s hs
    rcases h : s.isEmpty with _ | _
    · rfl
    · exact absurd (String.isEmpty_iff s |>.mp h) hs
  constructor
  · intro s
    by_cases hs : s = ""
    · subst hs
      exact ⟨fun _ => rfl, fun _ => rfl⟩
    · have hie := hne s hs
      unfold convert_date_format
      rw [hie]
      simp only [Bool.false_eq_true, if_false]
      constructor
      · intro h
        exfalso
        rcases hm1 : matchP1 s.toList with _ | ⟨d, t, tz⟩
        · rw [hm1] at h
          rcases hm2 : matchP2 s.toList with _ | ⟨d, t, tz⟩
          · rw [hm2] at h
            rcases hm3 : matchP3 s.toList with _ | g
            · rw [hm3] at h
              exact Option.noConfusion h
            · rw [hm3] at h
              exact Option.noConfusion h
          · rw [hm2] at h
            exact Option.noConfusion h
        · rw [hm1] at h
          exact Option.noConfusion h
      · intro h
        exact absurd h hs
  · intro s hs h1 h2 h3
    have hie := hne s hs
    unfold convert_date_format
    rw [hie]
    simp only [Bool.false_eq_true, if_false]
    rw [h1, h2, h3]

/-- C9 witness: the theorem applied at the concrete inputs `""` and
`"hello"`. -/
theorem convert_date_format_total_spec_witness :
    convert_date_format "" = none ∧ convert_date_format "hello" = some "hello" := by
  refine ⟨(convert_date_format_total_spec.1 "").mpr rfl, ?_⟩
  exact convert_date_format_total_spec.2 "hello" (by decide) (by decide) (by decide) (by decide)

/-! ## C10: slug fallback removes every ".md" occurrence -/

/-- C10.  When the filename does not match the date-prefix pattern
`^\d{4}-\d{2}-\d{2}-(.+)\.md$`, `extract_slug_from_filename` falls back to
`filename.replace(".md", "")`, which deletes every occurrence of `.md`,
not only a trailing extension; on `"a.md.old.md"` the slug is `"a.old"`,
not `"a.md.old"`. -/
theorem extract_slug_spec :
    (∀ fn : String, matchSlugPat fn.toList = none →
      extract_slug_from_filename fn = ⟨replaceDelMd fn.toList⟩) ∧
    extract_slug_from_filename "a.md.old.md" = "a.old" ∧
    extract_slug_from_filename "a.md.old.md" ≠ "a.md.old" := by
  refine ⟨?_, by decide, by decide⟩
  intro fn h
  unfold extract_slug_from_filename
  rw [h]

/-- C10 witness: the fallback equation applied at `"notes.md"`. -/
theorem extract_slug_spec_witness :
    extract_slug_from_filename "notes.md" = ⟨replaceDelMd "notes.md".toList⟩ :=
  extract_slug_spec.1 "notes.md" (by decide)

end Fmt
